import Mathlib

/-!
# dedup: a verification development for `dedup.c`

`dedup.c` collects `(file name, size)` entries, sorts them by size and, in
`dedup_entries`, replaces every file whose content equals that of an earlier
file of the same size on the same device by a hard link to it.

This file embeds `dedup_entries` (and the pieces of libc it calls) as Lean
functions over an explicit program state and proves properties of that
embedding.

## Embedding

* The global array `entries` is a `List entry`: the whole allocated block
  (`entries_sz` slots).  The first `entries_n` slots are the collected
  entries, the remaining ones are whatever `realloc` left there.  The source
  indexes the block without a bound on `fb`, and so does `scan`; a read of a
  slot outside the block stops the run (`Halt.out_of_block`).
* `fname == NULL` is `fname = none`.  Sizes and the block size are natural
  numbers (a negative `blk_size` is outside the model).
* The file system is a record `FS`.  A path names a directory entry (`loc`;
  two spellings of one name, such as `b` and `./b`, name the same entry), and
  a directory entry holds a symbolic link or a file, given by device and
  inode (`dir`).  `stat` and `fopen` follow symbolic links, at most 40 of
  them as Linux does (`FS.node`); `unlink` removes the directory entry itself,
  and `link` gives the new directory entry what the old one holds without
  following a symbolic link there, as `link(2)` does on Linux.  A relative
  link target is looked up from the directory of the entry the link sits in
  (`via`).  `data` gives the bytes of each inode; `readable`, `can_unlink`
  and `can_link` are the permissions that make `fopen`, `unlink` and `link`
  fail.
* Which directory entry a path or a link target names (`loc`, `via`) is
  taken from the file system the run starts in and does not change.  That is
  exact as long as the run replaces no directory entry that lies on the way to
  a path it uses afterwards; `dirs` and `via_dirs` list the directory entries
  on the way, and `Apart` states the condition for the entries of a run.
* `stat` fills its buffer only on success; its return value is ignored by the
  source, so after a failed `stat` the buffer keeps its old contents.  The
  buffers `sfa`, `sfb` start with arbitrary contents.
* The two block buffers `ba`, `bb` are allocated once and never cleared, so
  they are part of the state; they start with arbitrary contents.
* Every call the loop makes is appended to `State.out`, together with the
  file system in which it was made.  The lines printed under `debug` are not
  part of the log.
* The loops are defined by recursion on a fuel argument; `dedup_entries_fuel`
  shows that the fuel given is always enough.

## Layout

Definitions come first: the data model, libc, `dedup_entries`, the notions the
statements use, the example inputs and the invariants of the proofs.  The
theorems follow, grouped by the part of the program they are about.
-/

namespace Dedup

/-! ## Data model -/

abbrev Byte := Fin 256

abbrev Path := String

/-- C `struct entry` (lines 13-16): file name (`none` is `NULL`) and file size. -/
structure entry where
  fname : Option Path
  size : Nat
deriving DecidableEq

/-- The two fields of `struct stat` that `dedup_entries` reads. -/
structure Stat where
  st_dev : Nat
  st_ino : Nat
deriving DecidableEq

/-- The globals that configure `dedup_entries`: `blk_size` (line 40),
`verbose` (line 31) and `dry_run` (line 37). -/
structure Config where
  blk_size : Nat
  verbose : Bool
  dry_run : Bool
deriving DecidableEq

/-- A directory entry: one name in one directory. -/
abbrev Loc := Nat

/-- What a directory entry holds: a symbolic link, given by its target, or
anything else, given by device and inode. -/
inductive Obj where
  | file (s : Stat)
  | symlink (target : Path)
deriving DecidableEq

/-- File system state. `loc p` is the directory entry that the path `p`
names and `dirs p` are the directory entries passed on the way to it (those of
the directories in `p`); `via l t` and `via_dirs l t` are the same for the link
target `t`, looked up from the directory that the directory entry `l` is in.
`dir l` is what the directory entry `l` holds (if anything) and `data s` the
bytes of inode `s`; `readable`, `can_unlink` and `can_link` say whether the
environment lets `fopen`, `unlink` and `link` succeed. -/
structure FS where
  loc : Path → Loc
  dirs : Path → List Loc
  via : Loc → Path → Loc
  via_dirs : Loc → Path → List Loc
  dir : Loc → Option Obj
  data : Stat → List Byte
  readable : Stat → Bool
  can_unlink : Path → Bool
  can_link : Path → Path → Bool

/-- Calls and outputs of `dedup_entries`, by entry slot. -/
inductive Event where
  /-- `fb->size` is read from slot `j` (line 147). -/
  | read_size (j : Nat)
  /-- `stat(e->fname, ..)` for slot `i` (lines 144, 152). -/
  | stat (i : Nat)
  /-- `fopen(e->fname, "rb")` for slot `i` (lines 162, 165). -/
  | fopen (i : Nat) (ok : Bool)
  /-- The block comparison of slots `i` and `j` ended (lines 170-181). -/
  | compare (i j : Nat) (identical : Bool)
  /-- The line `keep -> removed` was printed (line 183). -/
  | print_pair (keep removed : Path)
  /-- `unlink(fb->fname)`, anchor slot `i`, candidate slot `j` (line 186). -/
  | unlink (i j : Nat) (ok : Bool)
  /-- `link(fa->fname, fb->fname)` (line 189). -/
  | link (i j : Nat) (ok : Bool)
  /-- An `ERROR:` line was printed for this path (lines 187, 190, 200, 208). -/
  | print_error (p : Path)
  /-- `dispose_entry` on slot `i` (lines 193, 202, 210, 221). -/
  | dispose (i : Nat)
deriving DecidableEq

/-- Why a run stopped before the end of the `for` loop. -/
inductive Halt where
  /-- Slot `j` lies outside the allocated block. -/
  | out_of_block (j : Nat)
  /-- A loop of the model was given too little fuel (never happens, see
  `dedup_entries_fuel`). -/
  | fuel
deriving DecidableEq

/-- Program state of `dedup_entries`. -/
structure State where
  entries : List entry
  fs : FS
  ba : List Byte
  bb : List Byte
  sfa : Stat
  sfb : Stat
  out : List (FS × Event)
  halt : Option Halt

/-! ## libc -/

/-- Path resolution from the directory entry `l`, following at most `k`
symbolic links; `none` is `ENOENT` or `ELOOP`. -/
def FS.walk (fs : FS) : Nat → Loc → Option Stat
  | 0, l =>
    match fs.dir l with
    | some (Obj.file s) => some s
    | _ => none
  | k + 1, l =>
    match fs.dir l with
    | some (Obj.file s) => some s
    | some (Obj.symlink t) => fs.walk k (fs.via l t)
    | none => none

/-- The directory entries whose contents decide where the resolution from
`l` ends: `l` and those of the symbolic links followed from there. -/
def FS.trail (fs : FS) : Nat → Loc → List Loc
  | 0, l => [l]
  | k + 1, l =>
    match fs.dir l with
    | some (Obj.symlink t) => l :: fs.trail k (fs.via l t)
    | _ => [l]

/-- The file that the path `p` leads to, symbolic links followed (Linux
follows at most 40). -/
def FS.node (fs : FS) (p : Path) : Option Stat :=
  fs.walk 40 (fs.loc p)

/-- The directory entries whose contents decide where the path `p` leads:
its own and those of the symbolic links followed from there. -/
def FS.visits (fs : FS) (p : Path) : List Loc :=
  fs.trail 40 (fs.loc p)

/-- Every directory entry that the resolution from `l` looks at, those
passed on the way to a link target included. -/
def FS.trace (fs : FS) : Nat → Loc → List Loc
  | 0, l => [l]
  | k + 1, l =>
    match fs.dir l with
    | some (Obj.symlink t) => l :: (fs.via_dirs l t ++ fs.trace k (fs.via l t))
    | _ => [l]

/-- Every directory entry that the resolution of the path `p` looks at. -/
def FS.reads (fs : FS) (p : Path) : List Loc :=
  fs.dirs p ++ fs.trace 40 (fs.loc p)

/-- `stat(p, &buf)`: on success the buffer is filled, on failure it is left
as it was. -/
def FS.stat (fs : FS) (p : Path) (buf : Stat) : Stat :=
  match fs.node p with
  | some s => s
  | none => buf

/-- `fopen(p, "rb")`: the stream is the list of bytes still to be read. -/
def FS.fopen (fs : FS) (p : Path) : Option (List Byte) :=
  match fs.node p with
  | some s => if fs.readable s then some (fs.data s) else none
  | none => none

/-- `unlink(p)`: removes the directory entry that `p` names (a symbolic link
there is removed, not followed); `none` is the return value `-1`. -/
def FS.unlink (fs : FS) (p : Path) : Option FS :=
  if (fs.dir (fs.loc p)).isSome ∧ fs.can_unlink p = true then
    some { fs with dir := fun l => if l = fs.loc p then none else fs.dir l }
  else none

/-- `link(oldp, newp)`: the directory entry of `newp`, which must be empty,
gets what the directory entry of `oldp` holds (a symbolic link there is not
followed); `none` is the return value `-1`. -/
def FS.link (fs : FS) (oldp newp : Path) : Option FS :=
  match fs.dir (fs.loc oldp) with
  | some o =>
    if (fs.dir (fs.loc newp)).isNone ∧ fs.can_link oldp newp = true then
      some { fs with dir := fun l => if l = fs.loc newp then some o else fs.dir l }
    else none
  | none => none

/-- Result of `fread(buf, 1, nmemb, stream)`: the count returned, the buffer
and the stream afterwards. -/
structure Fread where
  count : Nat
  buf : List Byte
  rest : List Byte

/-- `fread(buf, 1, nmemb, stream)`: only the first `count` bytes of the
buffer are overwritten. -/
def fread (buf : List Byte) (nmemb : Nat) (stream : List Byte) : Fread :=
  let k := min nmemb stream.length
  { count := k, buf := stream.take k ++ buf.drop k, rest := stream.drop k }

/-- `memcmp(a, b, n) != 0`. -/
def memcmp (a b : List Byte) (n : Nat) : Bool :=
  decide (a.take n ≠ b.take n)

/-! ## `dedup_entries` -/

/-- `dispose_entry` (lines 115-120). -/
def dispose_entry (e : entry) : entry :=
  { e with fname := none }

/-- Append an event, with the file system it was issued in. -/
def State.emit (st : State) (ev : Event) : State :=
  { st with out := st.out ++ [(st.fs, ev)] }

/-- `dispose_entry(entries + i)`. -/
def State.dispose (st : State) (i : Nat) : State :=
  { st.emit (Event.dispose i) with entries := st.entries.modify dispose_entry i }

/-- Store the result of `stat(.., &sfa)`. -/
def State.set_sfa (st : State) (s : Stat) : State :=
  { st with sfa := s }

/-- Store the result of `stat(.., &sfb)`. -/
def State.set_sfb (st : State) (s : Stat) : State :=
  { st with sfb := s }

/-- Store the contents of the two block buffers. -/
def State.set_bufs (st : State) (ba bb : List Byte) : State :=
  { st with ba := ba, bb := bb }

/-- Replace the file system after a successful `unlink` or `link`. -/
def State.set_fs (st : State) (fs : FS) : State :=
  { st with fs := fs }

/-- Stop the run. -/
def State.stop (st : State) (h : Halt) : State :=
  { st with halt := some h }

/-- Outcome of the read loop: the last value of `z`, the two buffers, and
the number of block pairs that were compared and found equal. -/
structure Verdict where
  z : Nat
  ba : List Byte
  bb : List Byte
  blocks : Nat
deriving DecidableEq

/-- The read loop, lines 170-176. `fda`, `fdb` are the two streams; `k`
counts the block pairs already passed. -/
def read_loop (blk : Nat) :
    Nat → List Byte → List Byte → List Byte → List Byte → Nat → Option Verdict
  | 0, _, _, _, _, _ => none
  | fuel + 1, ba, bb, fda, fdb, k =>
    let ra := fread ba blk fda
    if ra.count = 0 then
      some { z := 0, ba := ra.buf, bb := bb, blocks := k }
    else
      let rb := fread bb blk fdb
      if memcmp ra.buf rb.buf ra.count then
        some { z := ra.count, ba := ra.buf, bb := rb.buf, blocks := k }
      else
        read_loop blk fuel ra.buf rb.buf ra.rest rb.rest (k + 1)

/-- Lines 170-176 on two freshly opened streams. Every pass of the loop
consumes at least one byte of `fda`, so `fda.length + 1` passes suffice. -/
def compare_contents (blk : Nat) (ba bb fda fdb : List Byte) : Option Verdict :=
  read_loop blk (fda.length + 1) ba bb fda fdb 0

/-- Lines 185-191: the link transaction of a real run. -/
def link_transaction (n fb : Nat) (pa pb : Path) (st : State) : State :=
  match st.fs.unlink pb with
  | none => (st.emit (Event.unlink n fb false)).emit (Event.print_error pb)
  | some fs1 =>
    match fs1.link pa pb with
    | none =>
      ((((st.emit (Event.unlink n fb true)).set_fs fs1).emit (Event.link n fb false)).emit
        (Event.print_error pb))
    | some fs2 =>
      (((st.emit (Event.unlink n fb true)).set_fs fs1).emit (Event.link n fb true)).set_fs fs2

/-- Lines 182-184: the line printed for a pair found identical. -/
def print_pair (cfg : Config) (pa pb : Path) (st : State) : State :=
  if cfg.verbose then st.emit (Event.print_pair pa pb) else st

/-- Lines 181-194: what is done once the read loop has ended with `z == 0`. -/
def on_identical (cfg : Config) (n fb : Nat) (pa pb : Path) (st : State) : State :=
  if cfg.dry_run then (print_pair cfg pa pb st).dispose fb
  else (link_transaction n fb pa pb (print_pair cfg pa pb st)).dispose fb

/-- The state after `stat(fb->fname, &sfb)` (line 152). -/
def after_stat (fb : Nat) (pb : Path) (st : State) : State :=
  (st.emit (Event.stat fb)).set_sfb (st.fs.stat pb st.sfb)

/-- The device/inode test of line 155, on the result of the candidate's
`stat`. -/
def link_test (pb : Path) (st : State) : Prop :=
  st.sfa.st_dev = (st.fs.stat pb st.sfb).st_dev ∧
    st.sfa.st_ino ≠ (st.fs.stat pb st.sfb).st_ino

instance (pb : Path) (st : State) : Decidable (link_test pb st) := by
  unfold link_test; infer_instance

/-- The state after both files were opened and the read loop returned `v`
(lines 162-178). -/
def after_read (n fb : Nat) (pb : Path) (v : Verdict) (st : State) : State :=
  (((after_stat fb pb st).emit (Event.fopen n true)).emit (Event.fopen fb true)).set_bufs
    v.ba v.bb

/-- Lines 149-212: the body of `if (fb->fname)`, for the anchor in slot `n`
with name `pa` and the candidate in slot `fb` with name `pb`. -/
def cand_step (cfg : Config) (n fb : Nat) (pa pb : Path) (st : State) : State :=
  if link_test pb st then
    match st.fs.fopen pa with
    | some fda =>
      match st.fs.fopen pb with
      | some fdb =>
        match compare_contents cfg.blk_size st.ba st.bb fda fdb with
        | none =>
          (((after_stat fb pb st).emit (Event.fopen n true)).emit (Event.fopen fb true)).stop
            Halt.fuel
        | some v =>
          if v.z = 0 then
            on_identical cfg n fb pa pb ((after_read n fb pb v st).emit (Event.compare n fb true))
          else
            (after_read n fb pb v st).emit (Event.compare n fb false)
      | none =>
        ((((after_stat fb pb st).emit (Event.fopen n true)).emit (Event.fopen fb false)).emit
          (Event.print_error pb)).dispose fb
    | none =>
      (((after_stat fb pb st).emit (Event.fopen n false)).emit (Event.print_error pa)).dispose n
  else after_stat fb pb st

/-- The `while` loop of lines 147-217 for the anchor in slot `n`, with `fb`
at slot `fb`. Each pass moves `fb` one slot on, and a read outside the block
stops the run, so `entries.length` passes suffice. -/
def scan (cfg : Config) (n : Nat) : Nat → Nat → State → State
  | 0, _, st => st.stop Halt.fuel
  | fuel + 1, fb, st =>
    match st.halt with
    | some _ => st
    | none =>
      match st.entries[n]? with
      | none => st.stop (Halt.out_of_block n)
      | some fa =>
        match fa.fname with
        | none => st
        | some pa =>
          match st.entries[fb]? with
          | none => (st.emit (Event.read_size fb)).stop (Halt.out_of_block fb)
          | some eb =>
            if fa.size = eb.size then
              match eb.fname with
              | some pb =>
                scan cfg n fuel (fb + 1) (cand_step cfg n fb pa pb (st.emit (Event.read_size fb)))
              | none => scan cfg n fuel (fb + 1) (st.emit (Event.read_size fb))
            else st.emit (Event.read_size fb)

/-- Lines 143-217: the anchor's `stat` and the `while` loop. -/
def anchor_scan (cfg : Config) (n : Nat) (pa : Path) (st : State) : State :=
  scan cfg n st.entries.length (n + 1)
    ((st.emit (Event.stat n)).set_sfa (st.fs.stat pa st.sfa))

/-- Lines 139-222: the body of the `for` loop for slot `n`. -/
def anchor_step (cfg : Config) (n : Nat) (st : State) : State :=
  match st.halt with
  | some _ => st
  | none =>
    match st.entries[n]? with
    | none => st.stop (Halt.out_of_block n)
    | some fa =>
      match fa.fname with
      | some pa =>
        match (anchor_scan cfg n pa st).halt with
        | some _ => anchor_scan cfg n pa st
        | none => (anchor_scan cfg n pa st).dispose n
      | none => st.dispose n

/-- The `for` loop of line 138: `k` passes are left, the next one is for
slot `n`. -/
def for_loop (cfg : Config) : Nat → Nat → State → State
  | 0, _, st => st
  | k + 1, n, st => for_loop cfg k (n + 1) (anchor_step cfg n st)

/-- `dedup_entries` (lines 123-227): `n` runs from `0` to `entries_n - 2`. -/
def dedup_entries (cfg : Config) (entries_n : Nat) (st : State) : State :=
  for_loop cfg (entries_n - 1) 0 st

/-- The state in which `dedup_entries` starts: `ba0`, `bb0` are the contents
of the two blocks returned by `malloc`, `sfa0`, `sfb0` those of the two
uninitialised `struct stat`. -/
def State.init (mem : List entry) (fs : FS) (ba0 bb0 : List Byte) (sfa0 sfb0 : Stat) :
    State :=
  { entries := mem, fs := fs, ba := ba0, bb := bb0, sfa := sfa0, sfb := sfb0,
    out := [], halt := none }

/-- The events of a run, without the file-system snapshots. -/
def State.events (st : State) : List Event :=
  st.out.map Prod.snd

/-! ## Notions used in the statements -/

/-- Block number `i` (of `blk` bytes) of a file. -/
def block (blk i : Nat) (l : List Byte) : List Byte :=
  (l.drop (i * blk)).take blk

/-- What reading path `p` yields: the bytes of the inode it names. -/
def FS.content (fs : FS) (p : Path) : Option (List Byte) :=
  (fs.node p).map fs.data

/-- Slot `i` is live in `es`, with name `p`. -/
def Live (es : List entry) (i : Nat) (p : Path) : Prop :=
  ∃ e : entry, es[i]? = some e ∧ e.fname = some p

/-- Slot `i` is not live in `es`: outside the block, or its name is `NULL`. -/
def Dead (es : List entry) (i : Nat) : Prop :=
  ∀ e : entry, es[i]? = some e → e.fname = none

/-- Entries relative to the block `mem` the run started from: same sizes,
and every name is the original one or `NULL`. -/
def Frame (mem es : List entry) : Prop :=
  es.length = mem.length ∧
    ∀ (i : Nat) (e : entry), es[i]? = some e →
      ∃ e0 : entry, mem[i]? = some e0 ∧ e.size = e0.size ∧
        (e.fname = e0.fname ∨ e.fname = none)

/-- The slots whose files an event works on. -/
def Event.uses : Event → List Nat
  | Event.stat i => [i]
  | Event.fopen i _ => [i]
  | Event.compare i j _ => [i, j]
  | Event.unlink i j _ => [i, j]
  | Event.link i j _ => [i, j]
  | _ => []

/-- No event works on a slot after a `dispose` of that slot. -/
def Ordered (evs : List Event) : Prop :=
  evs.Pairwise (fun a b => ∀ i, a = Event.dispose i → i ∉ b.uses)

/-- In the file system `fs`, slots `i` and `j` of the block `mem` have equal
recorded sizes and their files are on the same device. -/
def Linkable (mem : List entry) (fs : FS) (i j : Nat) : Prop :=
  ∃ (ea eb : entry) (pa pb : Path) (sa sb : Stat),
    mem[i]? = some ea ∧ mem[j]? = some eb ∧ ea.size = eb.size ∧
    ea.fname = some pa ∧ eb.fname = some pb ∧
    fs.node pa = some sa ∧ fs.node pb = some sb ∧ sa.st_dev = sb.st_dev

/-- The pair printed by an event, if it is a `keep -> removed` line. -/
def Event.pair : Event → Option (Path × Path)
  | Event.print_pair keep removed => some (keep, removed)
  | _ => none

/-- The `(keep, removed)` pairs a run has reported, in order. -/
def State.reported (st : State) : List (Path × Path) :=
  st.events.filterMap Event.pair

/-- The slot after the last entry lies in the block and does not hold the
size of the last entry: the read of `entries[entries_n].size` ends the scan. -/
def Benign (mem : List entry) (N : Nat) : Prop :=
  ∃ a e : entry, mem[N - 1]? = some a ∧ mem[N]? = some e ∧ e.size ≠ a.size

/-- No entry's path leads to or through the directory entry of another
entry's path: the resolution of the one never looks at the directory entry
that the other names. Two entries with the same path, two spellings of one
name, and a symbolic link that leads to (or through) another entry are what
this excludes; two names of one inode (hard links) are not. -/
def Apart (mem : List entry) (N : Nat) (fs : FS) : Prop :=
  ∀ (i j : Nat) (p q : Path), i < N → j < N → Live mem i p → Live mem j q → i ≠ j →
    fs.loc q ∉ fs.reads p

/-! ## Example inputs -/

/-- File system of the example of a grown file: `a` and `b` are two files on
device 1 with inodes 10 and 11; `a` holds the byte 1, `b` the bytes 1, 2. -/
def fs_grown : FS :=
  { loc := fun p => if p = "a" then 0 else if p = "b" then 1 else 2,
    dirs := fun _ => [],
    via := fun _ _ => 2,
    via_dirs := fun _ _ => [],
    dir := fun l =>
      if l = 0 then some (Obj.file ⟨1, 10⟩) else if l = 1 then some (Obj.file ⟨1, 11⟩)
      else none,
    data := fun s => if s.st_ino = 10 then [1] else if s.st_ino = 11 then [1, 2] else [],
    readable := fun _ => true,
    can_unlink := fun _ => true,
    can_link := fun _ _ => true }

/-- Both entries were collected with size 1; `b` has grown since. The block
has one spare slot. -/
def mem_grown : List entry :=
  [⟨some "a", 1⟩, ⟨some "b", 1⟩, ⟨none, 0⟩]

/-- File system of the examples: three files on device 1 with inodes 10, 11
and 12; `a` and `b` hold the same three bytes, `c` differs in the last byte. -/
def fs_three : FS :=
  { loc := fun p => if p = "a" then 0 else if p = "b" then 1 else if p = "c" then 2 else 3,
    dirs := fun _ => [],
    via := fun _ _ => 3,
    via_dirs := fun _ _ => [],
    dir := fun l =>
      if l = 0 then some (Obj.file ⟨1, 10⟩) else if l = 1 then some (Obj.file ⟨1, 11⟩)
      else if l = 2 then some (Obj.file ⟨1, 12⟩) else none,
    data := fun s =>
      if s.st_ino = 10 then [1, 2, 3] else if s.st_ino = 11 then [1, 2, 3]
      else if s.st_ino = 12 then [1, 2, 4] else [],
    readable := fun _ => true,
    can_unlink := fun _ => true,
    can_link := fun _ _ => true }

/-- The three entries of `fs_three`, as collected: all of size 3. -/
def mem_three : List entry :=
  [⟨some "a", 3⟩, ⟨some "b", 3⟩, ⟨some "c", 3⟩]

/-- The block of `mem_three` with one spare slot after the three entries. -/
def mem_three_block : List entry :=
  mem_three ++ [⟨none, 0⟩]

/-- The entry sequence `a`, `b`, `b` (the path `b` was collected twice),
with one spare slot. -/
def mem_twice : List entry :=
  [⟨some "a", 3⟩, ⟨some "b", 3⟩, ⟨some "b", 3⟩, ⟨none, 0⟩]

/-- Three names for two files with the same three bytes: `a` (inode 10), `b`
(inode 11) and `c`, a symbolic link to `b` in the same directory. -/
def fs_alias : FS :=
  { loc := fun p => if p = "a" then 0 else if p = "b" then 1 else if p = "c" then 2 else 3,
    dirs := fun _ => [],
    via := fun _ t => if t = "b" then 1 else 3,
    via_dirs := fun _ _ => [],
    dir := fun l =>
      if l = 0 then some (Obj.file ⟨1, 10⟩) else if l = 1 then some (Obj.file ⟨1, 11⟩)
      else if l = 2 then some (Obj.symlink "b") else none,
    data := fun s => if s.st_ino = 10 ∨ s.st_ino = 11 then [1, 2, 3] else [],
    readable := fun _ => true,
    can_unlink := fun _ => true,
    can_link := fun _ _ => true }

/-- Two directories `d1` and `d2` on device 1. `d1/s` is a symbolic link
with the relative target `t`, so it leads to `d1/t` (inode 10); `d2/f` is a
file (inode 11); `d2/t` is a file (inode 12) when `other` is given, with these
bytes, and does not exist otherwise. `d1/t` and `d2/f` hold the bytes
1, 2, 3. The directory entries are numbered `d1/s` 0, `d1/t` 1, `d2/f` 2,
`d2/t` 3, `d1` 5 and `d2` 6; the target `t` names `d1/t` from `d1` and `d2/t`
from `d2`. -/
def fs_symlink (other : Option (List Byte)) : FS :=
  { loc := fun p =>
      if p = "d1/s" then 0 else if p = "d1/t" then 1 else if p = "d2/f" then 2
      else if p = "d2/t" then 3 else 4,
    dirs := fun p =>
      if p = "d1/s" ∨ p = "d1/t" then [5] else if p = "d2/f" ∨ p = "d2/t" then [6] else [],
    via := fun l t => if t = "t" then (if l ≤ 1 then 1 else if l ≤ 3 then 3 else 4) else 4,
    via_dirs := fun _ _ => [],
    dir := fun l =>
      if l = 0 then some (Obj.symlink "t") else if l = 1 then some (Obj.file ⟨1, 10⟩)
      else if l = 2 then some (Obj.file ⟨1, 11⟩)
      else if l = 3 then other.map (fun _ => Obj.file ⟨1, 12⟩)
      else if l = 5 then some (Obj.file ⟨1, 2⟩) else if l = 6 then some (Obj.file ⟨1, 3⟩)
      else none,
    data := fun s =>
      if s.st_ino = 10 ∨ s.st_ino = 11 then [1, 2, 3]
      else if s.st_ino = 12 then other.getD [] else [],
    readable := fun _ => true,
    can_unlink := fun _ => true,
    can_link := fun _ _ => true }

/-- The entries `d1/s` and `d2/f`, both collected with size 3, and one spare
slot. -/
def mem_symlink : List entry :=
  [⟨some "d1/s", 3⟩, ⟨some "d2/f", 3⟩, ⟨none, 0⟩]

/-- Three files on device 1: `p` (inode 10) holds the byte 1, `a` (inode 11)
the bytes 1, 1 and `c` (inode 12) the bytes 2, 2. -/
def fs_short : FS :=
  { loc := fun p => if p = "p" then 0 else if p = "a" then 1 else if p = "c" then 2 else 3,
    dirs := fun _ => [],
    via := fun _ _ => 3,
    via_dirs := fun _ _ => [],
    dir := fun l =>
      if l = 0 then some (Obj.file ⟨1, 10⟩) else if l = 1 then some (Obj.file ⟨1, 11⟩)
      else if l = 2 then some (Obj.file ⟨1, 12⟩) else none,
    data := fun s =>
      if s.st_ino = 10 then [1] else if s.st_ino = 11 then [1, 1]
      else if s.st_ino = 12 then [2, 2] else [],
    readable := fun _ => true,
    can_unlink := fun _ => true,
    can_link := fun _ _ => true }

/-- The three entries of `fs_short` with their sizes, in a block whose slot
after the last entry holds the name `p` with the size 2, followed by one more
slot. -/
def mem_short : List entry :=
  [⟨some "p", 1⟩, ⟨some "a", 2⟩, ⟨some "c", 2⟩, ⟨some "p", 2⟩, ⟨none, 0⟩]

/-! ## Invariants used in the proofs -/

/-- A property of states that every primitive step of the program keeps. -/
structure Stable (P : State → Prop) : Prop where
  emit : ∀ st ev, P st → P (st.emit ev)
  dispose : ∀ st i, P st → P (st.dispose i)
  set_sfa : ∀ st s, P st → P (st.set_sfa s)
  set_sfb : ∀ st s, P st → P (st.set_sfb s)
  set_bufs : ∀ st a b, P st → P (st.set_bufs a b)
  unlink : ∀ st p fs1, st.fs.unlink p = some fs1 → P st → P (st.set_fs fs1)
  link : ∀ st p q fs1, st.fs.link p q = some fs1 → P st → P (st.set_fs fs1)

/-- The parts of the file system that `unlink` and `link` never change. -/
structure SameEnv (fs0 fs : FS) : Prop where
  data : fs.data = fs0.data
  readable : fs.readable = fs0.readable
  can_unlink : fs.can_unlink = fs0.can_unlink
  can_link : fs.can_link = fs0.can_link
  loc : fs.loc = fs0.loc
  via : fs.via = fs0.via
  dirs : fs.dirs = fs0.dirs
  via_dirs : fs.via_dirs = fs0.via_dirs

/-- The guard of the link transaction, for one logged call of the log `out`:
an `unlink` is issued on a linkable pair; a `link` is issued in the file system
left by a logged, successful `unlink` of the candidate of the same, linkable
pair. -/
def Guarded (mem : List entry) (out : List (FS × Event)) : FS × Event → Prop
  | (fs, Event.unlink i j _) => Linkable mem fs i j
  | (fs, Event.link i j _) =>
    ∃ (fs0 : FS) (eb : entry) (pb : Path), mem[j]? = some eb ∧ eb.fname = some pb ∧
      fs0.unlink pb = some fs ∧ Linkable mem fs0 i j ∧ (fs0, Event.unlink i j true) ∈ out
  | _ => True

/-- What the log of a run satisfies at every moment, relative to the block
`mem` the run started from. -/
structure LogInv (mem : List entry) (st : State) : Prop where
  frame : Frame mem st.entries
  dead : ∀ i, Event.dispose i ∈ st.events → Dead st.entries i
  ordered : Ordered st.events
  used_live : ∀ ev, ev ∈ st.events → ∀ i, i ∈ ev.uses → ∃ p, Live mem i p
  guarded : ∀ x, x ∈ st.out → Guarded mem st.out x

/-- The buffer `sfa` holds the result of `stat` on `pa`, if `pa` exists. -/
def AnchorStat (pa : Path) (st : State) : Prop :=
  ∀ s, st.fs.node pa = some s → s = st.sfa

/-- Slot `n`, if live, has the name `pa`. -/
def NameIs (n : Nat) (pa : Path) (st : State) : Prop :=
  ∀ p, Live st.entries n p → p = pa

/-- The candidate pointer of the anchor in slot `n` is within the `N`
entries, and when it stands right after the last entry, that entry has the
anchor's size. -/
def InRange (mem : List entry) (N n fb : Nat) : Prop :=
  fb ≤ N ∧ (fb = N → ∃ a l : entry, mem[n]? = some a ∧ mem[N - 1]? = some l ∧ a.size = l.size)

/-- The slot after the last entry, if the block has one, does not hold the
size of the last entry. -/
def Fenced (mem : List entry) (N : Nat) : Prop :=
  ∀ a e : entry, mem[N - 1]? = some a → mem[N]? = some e → e.size ≠ a.size

/-- What a dry run (`d`) and a real run (`r`) started in the file system
`fs0` have in common at every moment: everything but the log and the file
system, and the pairs reported; the dry run is still in `fs0`, and the real
run has changed none of the directory entries that the paths of the live
entries lead through. -/
structure Sim (mem : List entry) (N : Nat) (fs0 : FS) (d r : State) : Prop where
  frame : Frame mem r.entries
  entries : d.entries = r.entries
  ba : d.ba = r.ba
  bb : d.bb = r.bb
  sfa : d.sfa = r.sfa
  sfb : d.sfb = r.sfb
  halt : d.halt = r.halt
  reported : d.reported = r.reported
  dry : d.fs = fs0
  env : SameEnv fs0 r.fs
  same : ∀ (i : Nat) (p : Path), i < N → Live r.entries i p →
    ∀ l, l ∈ fs0.visits p → r.fs.dir l = fs0.dir l

/-! ## The read loop -/

theorem fread_count (buf : List Byte) (blk : Nat) (s : List Byte) :
    (fread buf blk s).count = min blk s.length := rfl

theorem fread_rest (buf : List Byte) (blk : Nat) (s : List Byte) :
    (fread buf blk s).rest = s.drop blk := by
  simp only [fread]
  rcases Nat.le_total blk s.length with h | h
  · rw [Nat.min_eq_left h]
  · rw [Nat.min_eq_right h, List.drop_of_length_le (le_refl _), List.drop_of_length_le h]

theorem fread_buf_take (buf : List Byte) (blk : Nat) (s : List Byte) :
    (fread buf blk s).buf.take (min blk s.length) = s.take blk := by
  simp only [fread]
  rw [List.take_append_of_le_length (by simp)]
  rw [List.take_take, Nat.min_self]
  rcases Nat.le_total blk s.length with h | h
  · rw [Nat.min_eq_left h]
  · rw [Nat.min_eq_right h, List.take_of_length_le (le_refl _), List.take_of_length_le h]

theorem block_zero (blk : Nat) (l : List Byte) : block blk 0 l = l.take blk := by
  simp [block]

theorem block_succ (blk i : Nat) (l : List Byte) :
    block blk (i + 1) l = block blk i (l.drop blk) := by
  simp only [block, List.drop_drop]
  congr 2
  ring

theorem eq_of_take_drop_eq {a b : List Byte} (n : Nat) (h1 : a.take n = b.take n)
    (h2 : a.drop n = b.drop n) : a = b := by
  rw [← List.take_append_drop n a, ← List.take_append_drop n b, h1, h2]

/-- The read loop on two streams of equal length: it returns, `z == 0` exactly
when the streams are equal, and otherwise it stops at the first block pair
that differs. -/
theorem read_loop_equal_length (blk : Nat) (hblk : 1 ≤ blk) :
    ∀ (fuel : Nat) (ba bb fda fdb : List Byte) (k : Nat),
      fda.length = fdb.length → fda.length < fuel →
      ∃ v, read_loop blk fuel ba bb fda fdb k = some v ∧
        (v.z = 0 ↔ fda = fdb) ∧
        (v.z ≠ 0 → k ≤ v.blocks ∧
          block blk (v.blocks - k) fda ≠ block blk (v.blocks - k) fdb ∧
          ∀ i, i < v.blocks - k → block blk i fda = block blk i fdb) := by
  intro fuel
  induction fuel with
  | zero => intro ba bb fda fdb k _ h; omega
  | succ fuel ih =>
    intro ba bb fda fdb k hlen hfuel
    simp only [read_loop]
    by_cases hc : (fread ba blk fda).count = 0
    · rw [if_pos hc]
      rw [fread_count] at hc
      have h0 : fda.length = 0 := by omega
      have ha : fda = [] := List.length_eq_zero.mp h0
      have hb : fdb = [] := List.length_eq_zero.mp (by omega)
      exact ⟨_, rfl, by simp [ha, hb], by simp⟩
    · rw [if_neg hc]
      have hta : (fread ba blk fda).buf.take (fread ba blk fda).count = fda.take blk := by
        rw [fread_count]; exact fread_buf_take _ _ _
      have htb : (fread bb blk fdb).buf.take (fread ba blk fda).count = fdb.take blk := by
        rw [fread_count, hlen]; exact fread_buf_take _ _ _
      by_cases hm : memcmp (fread ba blk fda).buf (fread bb blk fdb).buf (fread ba blk fda).count = true
      · rw [if_pos hm]
        simp only [memcmp, decide_eq_true_eq, hta, htb] at hm
        refine ⟨_, rfl, ?_, ?_⟩
        · simp only [hc, false_iff]
          intro h; exact hm (by rw [h])
        · intro _
          simp only [le_refl, Nat.sub_self, block_zero, true_and]
          exact ⟨hm, fun i hi => absurd hi (Nat.not_lt_zero _)⟩
      · rw [if_neg hm]
        simp only [memcmp, decide_eq_true_eq, hta, htb, not_not] at hm
        rw [fread_rest, fread_rest]
        have hpos : 0 < fda.length := by
          rw [fread_count] at hc; omega
        obtain ⟨v, hv, hz, hd⟩ := ih (fread ba blk fda).buf (fread bb blk fdb).buf
          (fda.drop blk) (fdb.drop blk) (k + 1)
          (by simp [hlen]) (by simp; omega)
        refine ⟨v, hv, ?_, ?_⟩
        · rw [hz]
          constructor
          · intro h; exact eq_of_take_drop_eq blk hm h
          · intro h; rw [h]
        · intro hne
          obtain ⟨hk, hdiff, hsame⟩ := hd hne
          have e : v.blocks - k = (v.blocks - (k + 1)) + 1 := by omega
          refine ⟨by omega, ?_, ?_⟩
          · rw [e, block_succ, block_succ]; exact hdiff
          · intro i hi
            cases i with
            | zero => simpa [block_zero] using hm
            | succ i =>
              rw [block_succ, block_succ]
              exact hsame i (by omega)

theorem fread_buf_take_le (buf : List Byte) (blk : Nat) (s : List Byte) (n : Nat)
    (h : n ≤ min blk s.length) : (fread buf blk s).buf.take n = s.take n := by
  simp only [fread]
  rw [List.take_append_of_le_length (by simp; omega)]
  rw [List.take_take, Nat.min_eq_left h]

theorem initial_of_take_drop {a b : List Byte} (n : Nat) (h1 : a.take n = b.take n)
    (h2 : a.drop n <+: b.drop n) : a <+: b := by
  obtain ⟨t, ht⟩ := h2
  refine ⟨t, ?_⟩
  rw [← List.take_append_drop n a, ← List.take_append_drop n b, List.append_assoc, ht, h1]

theorem take_eq_of_initial {a b : List Byte} (n : Nat) (h : a <+: b) (hn : n ≤ a.length) :
    a.take n = b.take n := by
  obtain ⟨t, rfl⟩ := h
  rw [List.take_append_of_le_length hn]

theorem drop_initial_of_initial {a b : List Byte} (n : Nat) (h : a <+: b) :
    a.drop n <+: b.drop n := by
  obtain ⟨t, rfl⟩ := h
  rcases Nat.le_total n a.length with hn | hn
  · rw [List.drop_append_of_le_length hn]; exact List.prefix_append _ _
  · rw [List.drop_of_length_le hn]; exact List.nil_prefix

/-- The read loop always returns when the block size is at least one and
the fuel exceeds the length of the first stream. -/
theorem read_loop_total (blk : Nat) (hblk : 1 ≤ blk) :
    ∀ (fuel : Nat) (ba bb fda fdb : List Byte) (k : Nat), fda.length < fuel →
      ∃ v, read_loop blk fuel ba bb fda fdb k = some v := by
  intro fuel
  induction fuel with
  | zero => intro ba bb fda fdb k h; omega
  | succ fuel ih =>
    intro ba bb fda fdb k hfuel
    simp only [read_loop]
    by_cases hc : (fread ba blk fda).count = 0
    · rw [if_pos hc]; exact ⟨_, rfl⟩
    · rw [if_neg hc]
      split
      · exact ⟨_, rfl⟩
      · apply ih
        rw [fread_rest, List.length_drop]
        rw [fread_count] at hc
        omega

/-- With block size zero the first `fread` returns 0 and the loop body never
runs. -/
theorem read_loop_blk_zero (fuel : Nat) (ba bb fda fdb : List Byte) (k : Nat) :
    read_loop 0 (fuel + 1) ba bb fda fdb k =
      some { z := 0, ba := (fread ba 0 fda).buf, bb := bb, blocks := k } := by
  simp [read_loop, fread_count]

theorem compare_contents_total (blk : Nat) (ba bb fda fdb : List Byte) :
    ∃ v, compare_contents blk ba bb fda fdb = some v := by
  rcases Nat.eq_zero_or_pos blk with h | h
  · subst h; exact ⟨_, read_loop_blk_zero _ _ _ _ _ _⟩
  · exact read_loop_total blk h _ _ _ _ _ _ (Nat.lt_succ_self _)

/-- When the second stream is at least as long as the first, `z == 0` exactly
when the first stream is an initial segment of the second. -/
theorem read_loop_longer (blk : Nat) (hblk : 1 ≤ blk) :
    ∀ (fuel : Nat) (ba bb fda fdb : List Byte) (k : Nat) (v : Verdict),
      fda.length ≤ fdb.length → read_loop blk fuel ba bb fda fdb k = some v →
      (v.z = 0 ↔ fda <+: fdb) := by
  intro fuel
  induction fuel with
  | zero => intro ba bb fda fdb k v _ h; simp [read_loop] at h
  | succ fuel ih =>
    intro ba bb fda fdb k v hlen hv
    simp only [read_loop] at hv
    by_cases hc : (fread ba blk fda).count = 0
    · rw [if_pos hc] at hv
      rw [fread_count] at hc
      have ha : fda = [] := List.length_eq_zero.mp (by omega)
      cases hv
      simp [ha]
    · rw [if_neg hc] at hv
      have hta : (fread ba blk fda).buf.take (fread ba blk fda).count
          = fda.take (min blk fda.length) := by
        rw [fread_count]; exact fread_buf_take_le _ _ _ _ (le_refl _)
      have htb : (fread bb blk fdb).buf.take (fread ba blk fda).count
          = fdb.take (min blk fda.length) := by
        rw [fread_count]; exact fread_buf_take_le _ _ _ _ (by omega)
      by_cases hm : memcmp (fread ba blk fda).buf (fread bb blk fdb).buf
          (fread ba blk fda).count = true
      · rw [if_pos hm] at hv
        simp only [memcmp, decide_eq_true_eq, hta, htb] at hm
        cases hv
        simp only [hc, false_iff]
        intro hp
        exact hm (take_eq_of_initial _ hp (Nat.min_le_right _ _))
      · rw [if_neg hm] at hv
        simp only [memcmp, decide_eq_true_eq, hta, htb, not_not] at hm
        rw [fread_rest, fread_rest] at hv
        have hrec := ih _ _ _ _ _ v (by simp only [List.length_drop]; omega) hv
        rw [hrec]
        constructor
        · intro hp
          rcases Nat.le_total blk fda.length with h | h
          · rw [Nat.min_eq_left h] at hm
            exact initial_of_take_drop blk hm hp
          · rw [Nat.min_eq_right h, List.take_of_length_le (le_refl _)] at hm
            exact List.prefix_iff_eq_take.mpr hm
        · intro hp
          exact drop_initial_of_initial blk hp

/-- Whatever the two lengths are, `z == 0` is reached only if the two
streams agree on their common length. -/
theorem read_loop_identical_agree (blk : Nat) (hblk : 1 ≤ blk) :
    ∀ (fuel : Nat) (ba bb fda fdb : List Byte) (k : Nat) (v : Verdict),
      read_loop blk fuel ba bb fda fdb k = some v → v.z = 0 →
      fda.take (min fda.length fdb.length) = fdb.take (min fda.length fdb.length) := by
  intro fuel
  induction fuel with
  | zero => intro ba bb fda fdb k v h; simp [read_loop] at h
  | succ fuel ih =>
    intro ba bb fda fdb k v hv hz
    simp only [read_loop] at hv
    by_cases hc : (fread ba blk fda).count = 0
    · rw [fread_count] at hc
      have ha : fda = [] := List.length_eq_zero.mp (by omega)
      simp [ha]
    · rw [if_neg hc] at hv
      by_cases hm : memcmp (fread ba blk fda).buf (fread bb blk fdb).buf
          (fread ba blk fda).count = true
      · rw [if_pos hm] at hv
        cases hv
        exact absurd hz hc
      · rw [if_neg hm] at hv
        simp only [memcmp, decide_eq_true_eq, not_not] at hm
        rw [fread_rest, fread_rest] at hv
        have hrec := ih _ _ _ _ _ v hv hz
        simp only [List.length_drop] at hrec
        rw [fread_count] at hm
        -- the first `n` bytes of both streams were compared
        have hn : ∀ n, n ≤ blk → n ≤ fda.length → n ≤ fdb.length →
            fda.take n = fdb.take n := by
          intro n h1 h2 h3
          have e := congrArg (List.take n) hm
          rw [List.take_take, List.take_take, Nat.min_eq_left (by omega)] at e
          rw [fread_buf_take_le _ _ _ _ (by omega), fread_buf_take_le _ _ _ _ (by omega)] at e
          exact e
        rcases Nat.le_total (min fda.length fdb.length) blk with h | h
        · exact hn _ h (Nat.min_le_left _ _) (Nat.min_le_right _ _)
        · have e : min fda.length fdb.length
              = blk + min (fda.length - blk) (fdb.length - blk) := by omega
          rw [e, List.take_add, List.take_add, hrec, hn blk (le_refl _) (by omega) (by omega)]

/-- The comparison of two files of equal length: it returns, `z == 0` exactly
when the files are equal, and otherwise it stops at the first block pair that
differs. -/
theorem compare_contents_equal_length (blk : Nat) (hblk : 1 ≤ blk) (ba bb a b : List Byte)
    (hlen : a.length = b.length) :
    ∃ v, compare_contents blk ba bb a b = some v ∧
      (v.z = 0 ↔ a = b) ∧
      (v.z ≠ 0 → block blk v.blocks a ≠ block blk v.blocks b ∧
        ∀ i, i < v.blocks → block blk i a = block blk i b) := by
  obtain ⟨v, hv, hz, hd⟩ :=
    read_loop_equal_length blk hblk (a.length + 1) ba bb a b 0 hlen (Nat.lt_succ_self _)
  refine ⟨v, hv, hz, fun hne => ?_⟩
  obtain ⟨_, h1, h2⟩ := hd hne
  exact ⟨by simpa using h1, fun i hi => h2 i (by simpa using hi)⟩

/-! ## Projections of the state transformers -/

@[simp] theorem emit_entries (st : State) (ev : Event) : (st.emit ev).entries = st.entries := rfl
@[simp] theorem emit_fs (st : State) (ev : Event) : (st.emit ev).fs = st.fs := rfl
@[simp] theorem emit_ba (st : State) (ev : Event) : (st.emit ev).ba = st.ba := rfl
@[simp] theorem emit_bb (st : State) (ev : Event) : (st.emit ev).bb = st.bb := rfl
@[simp] theorem emit_sfa (st : State) (ev : Event) : (st.emit ev).sfa = st.sfa := rfl
@[simp] theorem emit_sfb (st : State) (ev : Event) : (st.emit ev).sfb = st.sfb := rfl
@[simp] theorem emit_halt (st : State) (ev : Event) : (st.emit ev).halt = st.halt := rfl
@[simp] theorem emit_out (st : State) (ev : Event) :
    (st.emit ev).out = st.out ++ [(st.fs, ev)] := rfl

@[simp] theorem dispose_entries (st : State) (i : Nat) :
    (st.dispose i).entries = st.entries.modify dispose_entry i := rfl
@[simp] theorem dispose_fs (st : State) (i : Nat) : (st.dispose i).fs = st.fs := rfl
@[simp] theorem dispose_ba (st : State) (i : Nat) : (st.dispose i).ba = st.ba := rfl
@[simp] theorem dispose_bb (st : State) (i : Nat) : (st.dispose i).bb = st.bb := rfl
@[simp] theorem dispose_sfa (st : State) (i : Nat) : (st.dispose i).sfa = st.sfa := rfl
@[simp] theorem dispose_sfb (st : State) (i : Nat) : (st.dispose i).sfb = st.sfb := rfl
@[simp] theorem dispose_halt (st : State) (i : Nat) : (st.dispose i).halt = st.halt := rfl
@[simp] theorem dispose_out (st : State) (i : Nat) :
    (st.dispose i).out = st.out ++ [(st.fs, Event.dispose i)] := rfl

@[simp] theorem set_sfa_entries (st : State) (s : Stat) : (st.set_sfa s).entries = st.entries := rfl
@[simp] theorem set_sfa_fs (st : State) (s : Stat) : (st.set_sfa s).fs = st.fs := rfl
@[simp] theorem set_sfa_ba (st : State) (s : Stat) : (st.set_sfa s).ba = st.ba := rfl
@[simp] theorem set_sfa_bb (st : State) (s : Stat) : (st.set_sfa s).bb = st.bb := rfl
@[simp] theorem set_sfa_sfa (st : State) (s : Stat) : (st.set_sfa s).sfa = s := rfl
@[simp] theorem set_sfa_sfb (st : State) (s : Stat) : (st.set_sfa s).sfb = st.sfb := rfl
@[simp] theorem set_sfa_halt (st : State) (s : Stat) : (st.set_sfa s).halt = st.halt := rfl
@[simp] theorem set_sfa_out (st : State) (s : Stat) : (st.set_sfa s).out = st.out := rfl

@[simp] theorem set_sfb_entries (st : State) (s : Stat) : (st.set_sfb s).entries = st.entries := rfl
@[simp] theorem set_sfb_fs (st : State) (s : Stat) : (st.set_sfb s).fs = st.fs := rfl
@[simp] theorem set_sfb_ba (st : State) (s : Stat) : (st.set_sfb s).ba = st.ba := rfl
@[simp] theorem set_sfb_bb (st : State) (s : Stat) : (st.set_sfb s).bb = st.bb := rfl
@[simp] theorem set_sfb_sfa (st : State) (s : Stat) : (st.set_sfb s).sfa = st.sfa := rfl
@[simp] theorem set_sfb_sfb (st : State) (s : Stat) : (st.set_sfb s).sfb = s := rfl
@[simp] theorem set_sfb_halt (st : State) (s : Stat) : (st.set_sfb s).halt = st.halt := rfl
@[simp] theorem set_sfb_out (st : State) (s : Stat) : (st.set_sfb s).out = st.out := rfl

@[simp] theorem set_bufs_entries (st : State) (a b : List Byte) :
    (st.set_bufs a b).entries = st.entries := rfl
@[simp] theorem set_bufs_fs (st : State) (a b : List Byte) : (st.set_bufs a b).fs = st.fs := rfl
@[simp] theorem set_bufs_ba (st : State) (a b : List Byte) : (st.set_bufs a b).ba = a := rfl
@[simp] theorem set_bufs_bb (st : State) (a b : List Byte) : (st.set_bufs a b).bb = b := rfl
@[simp] theorem set_bufs_sfa (st : State) (a b : List Byte) : (st.set_bufs a b).sfa = st.sfa := rfl
@[simp] theorem set_bufs_sfb (st : State) (a b : List Byte) : (st.set_bufs a b).sfb = st.sfb := rfl
@[simp] theorem set_bufs_halt (st : State) (a b : List Byte) :
    (st.set_bufs a b).halt = st.halt := rfl
@[simp] theorem set_bufs_out (st : State) (a b : List Byte) : (st.set_bufs a b).out = st.out := rfl

@[simp] theorem set_fs_entries (st : State) (fs : FS) : (st.set_fs fs).entries = st.entries := rfl
@[simp] theorem set_fs_fs (st : State) (fs : FS) : (st.set_fs fs).fs = fs := rfl
@[simp] theorem set_fs_ba (st : State) (fs : FS) : (st.set_fs fs).ba = st.ba := rfl
@[simp] theorem set_fs_bb (st : State) (fs : FS) : (st.set_fs fs).bb = st.bb := rfl
@[simp] theorem set_fs_sfa (st : State) (fs : FS) : (st.set_fs fs).sfa = st.sfa := rfl
@[simp] theorem set_fs_sfb (st : State) (fs : FS) : (st.set_fs fs).sfb = st.sfb := rfl
@[simp] theorem set_fs_halt (st : State) (fs : FS) : (st.set_fs fs).halt = st.halt := rfl
@[simp] theorem set_fs_out (st : State) (fs : FS) : (st.set_fs fs).out = st.out := rfl

@[simp] theorem stop_entries (st : State) (h : Halt) : (st.stop h).entries = st.entries := rfl
@[simp] theorem stop_fs (st : State) (h : Halt) : (st.stop h).fs = st.fs := rfl
@[simp] theorem stop_ba (st : State) (h : Halt) : (st.stop h).ba = st.ba := rfl
@[simp] theorem stop_bb (st : State) (h : Halt) : (st.stop h).bb = st.bb := rfl
@[simp] theorem stop_sfa (st : State) (h : Halt) : (st.stop h).sfa = st.sfa := rfl
@[simp] theorem stop_sfb (st : State) (h : Halt) : (st.stop h).sfb = st.sfb := rfl
@[simp] theorem stop_halt (st : State) (h : Halt) : (st.stop h).halt = some h := rfl
@[simp] theorem stop_out (st : State) (h : Halt) : (st.stop h).out = st.out := rfl

@[simp] theorem after_stat_entries (fb : Nat) (pb : Path) (st : State) :
    (after_stat fb pb st).entries = st.entries := rfl
@[simp] theorem after_stat_fs (fb : Nat) (pb : Path) (st : State) :
    (after_stat fb pb st).fs = st.fs := rfl
@[simp] theorem after_stat_ba (fb : Nat) (pb : Path) (st : State) :
    (after_stat fb pb st).ba = st.ba := rfl
@[simp] theorem after_stat_bb (fb : Nat) (pb : Path) (st : State) :
    (after_stat fb pb st).bb = st.bb := rfl
@[simp] theorem after_stat_sfa (fb : Nat) (pb : Path) (st : State) :
    (after_stat fb pb st).sfa = st.sfa := rfl
@[simp] theorem after_stat_sfb (fb : Nat) (pb : Path) (st : State) :
    (after_stat fb pb st).sfb = st.fs.stat pb st.sfb := rfl
@[simp] theorem after_stat_halt (fb : Nat) (pb : Path) (st : State) :
    (after_stat fb pb st).halt = st.halt := rfl
@[simp] theorem after_stat_out (fb : Nat) (pb : Path) (st : State) :
    (after_stat fb pb st).out = st.out ++ [(st.fs, Event.stat fb)] := rfl

@[simp] theorem after_read_entries (n fb : Nat) (pb : Path) (v : Verdict) (st : State) :
    (after_read n fb pb v st).entries = st.entries := rfl
@[simp] theorem after_read_fs (n fb : Nat) (pb : Path) (v : Verdict) (st : State) :
    (after_read n fb pb v st).fs = st.fs := rfl
@[simp] theorem after_read_ba (n fb : Nat) (pb : Path) (v : Verdict) (st : State) :
    (after_read n fb pb v st).ba = v.ba := rfl
@[simp] theorem after_read_bb (n fb : Nat) (pb : Path) (v : Verdict) (st : State) :
    (after_read n fb pb v st).bb = v.bb := rfl
@[simp] theorem after_read_sfa (n fb : Nat) (pb : Path) (v : Verdict) (st : State) :
    (after_read n fb pb v st).sfa = st.sfa := rfl
@[simp] theorem after_read_sfb (n fb : Nat) (pb : Path) (v : Verdict) (st : State) :
    (after_read n fb pb v st).sfb = st.fs.stat pb st.sfb := rfl
@[simp] theorem after_read_halt (n fb : Nat) (pb : Path) (v : Verdict) (st : State) :
    (after_read n fb pb v st).halt = st.halt := rfl
@[simp] theorem after_read_out (n fb : Nat) (pb : Path) (v : Verdict) (st : State) :
    (after_read n fb pb v st).out =
      st.out ++ [(st.fs, Event.stat fb)] ++ [(st.fs, Event.fopen n true)] ++
        [(st.fs, Event.fopen fb true)] := rfl

@[simp] theorem print_pair_entries (cfg : Config) (pa pb : Path) (st : State) :
    (print_pair cfg pa pb st).entries = st.entries := by
  unfold print_pair; split <;> rfl
@[simp] theorem print_pair_fs (cfg : Config) (pa pb : Path) (st : State) :
    (print_pair cfg pa pb st).fs = st.fs := by
  unfold print_pair; split <;> rfl
@[simp] theorem print_pair_ba (cfg : Config) (pa pb : Path) (st : State) :
    (print_pair cfg pa pb st).ba = st.ba := by
  unfold print_pair; split <;> rfl
@[simp] theorem print_pair_bb (cfg : Config) (pa pb : Path) (st : State) :
    (print_pair cfg pa pb st).bb = st.bb := by
  unfold print_pair; split <;> rfl
@[simp] theorem print_pair_sfa (cfg : Config) (pa pb : Path) (st : State) :
    (print_pair cfg pa pb st).sfa = st.sfa := by
  unfold print_pair; split <;> rfl
@[simp] theorem print_pair_sfb (cfg : Config) (pa pb : Path) (st : State) :
    (print_pair cfg pa pb st).sfb = st.sfb := by
  unfold print_pair; split <;> rfl
@[simp] theorem print_pair_halt (cfg : Config) (pa pb : Path) (st : State) :
    (print_pair cfg pa pb st).halt = st.halt := by
  unfold print_pair; split <;> rfl
/-! ## Proof rules for the control structure -/

/-- Proof rule for `cand_step`: one premise per way through the body. -/
theorem cand_step_rule (cfg : Config) (n fb : Nat) (pa pb : Path) (st : State)
    (Q : State → Prop)
    (h_skip : ¬ link_test pb st → Q (after_stat fb pb st))
    (h_anchor : link_test pb st → st.fs.fopen pa = none →
      Q ((((after_stat fb pb st).emit (Event.fopen n false)).emit
        (Event.print_error pa)).dispose n))
    (h_cand : ∀ fda, link_test pb st → st.fs.fopen pa = some fda → st.fs.fopen pb = none →
      Q (((((after_stat fb pb st).emit (Event.fopen n true)).emit
        (Event.fopen fb false)).emit (Event.print_error pb)).dispose fb))
    (h_diff : ∀ fda fdb v, link_test pb st → st.fs.fopen pa = some fda →
      st.fs.fopen pb = some fdb →
      compare_contents cfg.blk_size st.ba st.bb fda fdb = some v → v.z ≠ 0 →
      Q ((after_read n fb pb v st).emit (Event.compare n fb false)))
    (h_same : ∀ fda fdb v, link_test pb st → st.fs.fopen pa = some fda →
      st.fs.fopen pb = some fdb →
      compare_contents cfg.blk_size st.ba st.bb fda fdb = some v → v.z = 0 →
      Q (on_identical cfg n fb pa pb ((after_read n fb pb v st).emit
        (Event.compare n fb true)))) :
    Q (cand_step cfg n fb pa pb st) := by
  unfold cand_step
  by_cases ht : link_test pb st
  · rw [if_pos ht]
    cases ha : st.fs.fopen pa with
    | none => exact h_anchor ht ha
    | some fda =>
      dsimp only
      cases hb : st.fs.fopen pb with
      | none => exact h_cand fda ht ha hb
      | some fdb =>
        dsimp only
        obtain ⟨v, hv⟩ := compare_contents_total cfg.blk_size st.ba st.bb fda fdb
        rw [hv]
        dsimp only
        by_cases hz : v.z = 0
        · rw [if_pos hz]; exact h_same fda fdb v ht ha hb hv hz
        · rw [if_neg hz]; exact h_diff fda fdb v ht ha hb hv hz
  · rw [if_neg ht]; exact h_skip ht

/-- Proof rule for `link_transaction`. -/
theorem link_transaction_rule (n fb : Nat) (pa pb : Path) (st : State) (Q : State → Prop)
    (h_unlink : st.fs.unlink pb = none →
      Q ((st.emit (Event.unlink n fb false)).emit (Event.print_error pb)))
    (h_link : ∀ fs1, st.fs.unlink pb = some fs1 → fs1.link pa pb = none →
      Q ((((st.emit (Event.unlink n fb true)).set_fs fs1).emit
        (Event.link n fb false)).emit (Event.print_error pb)))
    (h_ok : ∀ fs1 fs2, st.fs.unlink pb = some fs1 → fs1.link pa pb = some fs2 →
      Q ((((st.emit (Event.unlink n fb true)).set_fs fs1).emit
        (Event.link n fb true)).set_fs fs2)) :
    Q (link_transaction n fb pa pb st) := by
  unfold link_transaction
  cases h1 : st.fs.unlink pb with
  | none => exact h_unlink h1
  | some fs1 =>
    dsimp only
    cases h2 : fs1.link pa pb with
    | none => exact h_link fs1 h1 h2
    | some fs2 => exact h_ok fs1 fs2 h1 h2

/-- Proof rule for the `while` loop: `I fb st` is the loop invariant. -/
theorem scan_rule (cfg : Config) (n : Nat) (I : Nat → State → Prop) (Q : State → Prop)
    (h_step : ∀ fb st fa pa eb pb, st.halt = none → st.entries[n]? = some fa →
      fa.fname = some pa → st.entries[fb]? = some eb → fa.size = eb.size →
      eb.fname = some pb → I fb st →
      I (fb + 1) (cand_step cfg n fb pa pb (st.emit (Event.read_size fb))))
    (h_skip : ∀ fb st fa pa eb, st.halt = none → st.entries[n]? = some fa →
      fa.fname = some pa → st.entries[fb]? = some eb → fa.size = eb.size →
      eb.fname = none → I fb st → I (fb + 1) (st.emit (Event.read_size fb)))
    (h_halted : ∀ fb st, st.halt ≠ none → I fb st → Q st)
    (h_block : ∀ fb st, st.halt = none → st.entries[n]? = none → I fb st →
      Q (st.stop (Halt.out_of_block n)))
    (h_dead : ∀ fb st fa, st.halt = none → st.entries[n]? = some fa → fa.fname = none →
      I fb st → Q st)
    (h_over : ∀ fb st fa pa, st.halt = none → st.entries[n]? = some fa →
      fa.fname = some pa → st.entries[fb]? = none → I fb st →
      Q ((st.emit (Event.read_size fb)).stop (Halt.out_of_block fb)))
    (h_differ : ∀ fb st fa pa eb, st.halt = none → st.entries[n]? = some fa →
      fa.fname = some pa → st.entries[fb]? = some eb → fa.size ≠ eb.size → I fb st →
      Q (st.emit (Event.read_size fb)))
    (h_fuel : ∀ fb st, I fb st → Q (st.stop Halt.fuel)) :
    ∀ fuel fb st, I fb st → Q (scan cfg n fuel fb st) := by
  intro fuel
  induction fuel with
  | zero => intro fb st hI; exact h_fuel fb st hI
  | succ fuel ih =>
    intro fb st hI
    unfold scan
    cases hh : st.halt with
    | some h => exact h_halted fb st (by simp [hh]) hI
    | none =>
      dsimp only
      cases hfa : st.entries[n]? with
      | none => exact h_block fb st hh hfa hI
      | some fa =>
        dsimp only
        cases hpa : fa.fname with
        | none => exact h_dead fb st fa hh hfa hpa hI
        | some pa =>
          dsimp only
          cases heb : st.entries[fb]? with
          | none => exact h_over fb st fa pa hh hfa hpa heb hI
          | some eb =>
            dsimp only
            by_cases hs : fa.size = eb.size
            · rw [if_pos hs]
              cases hpb : eb.fname with
              | none => exact ih _ _ (h_skip fb st fa pa eb hh hfa hpa heb hs hpb hI)
              | some pb => exact ih _ _ (h_step fb st fa pa eb pb hh hfa hpa heb hs hpb hI)
            · rw [if_neg hs]
              exact h_differ fb st fa pa eb hh hfa hpa heb hs hI

/-- Proof rule for the `for` loop: `J n st` holds before the pass for slot
`n`, for `n` up to the bound `N`. -/
theorem for_loop_rule (cfg : Config) (N : Nat) (J : Nat → State → Prop)
    (h : ∀ n st, n < N → J n st → J (n + 1) (anchor_step cfg n st)) :
    ∀ k n st, n + k = N → J n st → J N (for_loop cfg k n st) := by
  intro k
  induction k with
  | zero => intro n st hn hJ; simp only [for_loop]; rw [← hn]; exact hJ
  | succ k ih =>
    intro n st hn hJ
    simp only [for_loop]
    exact ih (n + 1) _ (by omega) (h n st (by omega) hJ)

/-- Proof rule for the body of the `for` loop. -/
theorem anchor_step_rule (cfg : Config) (n : Nat) (st : State) (Q : State → Prop)
    (h_halted : st.halt ≠ none → Q st)
    (h_block : st.halt = none → st.entries[n]? = none → Q (st.stop (Halt.out_of_block n)))
    (h_dead : ∀ fa, st.halt = none → st.entries[n]? = some fa → fa.fname = none →
      Q (st.dispose n))
    (h_stop : ∀ fa pa, st.halt = none → st.entries[n]? = some fa → fa.fname = some pa →
      (anchor_scan cfg n pa st).halt ≠ none → Q (anchor_scan cfg n pa st))
    (h_live : ∀ fa pa, st.halt = none → st.entries[n]? = some fa → fa.fname = some pa →
      (anchor_scan cfg n pa st).halt = none → Q ((anchor_scan cfg n pa st).dispose n)) :
    Q (anchor_step cfg n st) := by
  unfold anchor_step
  cases hh : st.halt with
  | some h => exact h_halted (by simp [hh])
  | none =>
    dsimp only
    cases hfa : st.entries[n]? with
    | none => exact h_block hh hfa
    | some fa =>
      dsimp only
      cases hpa : fa.fname with
      | none => exact h_dead fa hh hfa hpa
      | some pa =>
        dsimp only
        cases h2 : (anchor_scan cfg n pa st).halt with
        | some h => exact h_stop fa pa hh hfa hpa (by simp [h2])
        | none => exact h_live fa pa hh hfa hpa h2

/-! ## Properties kept by every primitive step -/

theorem Stable.after_stat_keeps {P : State → Prop} (hP : Stable P) (fb : Nat) (pb : Path)
    (st : State) (h : P st) : P (after_stat fb pb st) :=
  hP.set_sfb _ _ (hP.emit _ _ h)

theorem Stable.after_read_keeps {P : State → Prop} (hP : Stable P) (n fb : Nat) (pb : Path)
    (v : Verdict) (st : State) (h : P st) : P (after_read n fb pb v st) :=
  hP.set_bufs _ _ _ (hP.emit _ _ (hP.emit _ _ (hP.after_stat_keeps fb pb st h)))

theorem Stable.print_pair_keeps {P : State → Prop} (hP : Stable P) (cfg : Config) (pa pb : Path)
    (st : State) (h : P st) : P (print_pair cfg pa pb st) := by
  unfold Dedup.print_pair
  split
  · exact hP.emit _ _ h
  · exact h

theorem Stable.link_transaction_keeps {P : State → Prop} (hP : Stable P) (n fb : Nat)
    (pa pb : Path) (st : State) (h : P st) : P (link_transaction n fb pa pb st) := by
  apply link_transaction_rule
  · intro _; exact hP.emit _ _ (hP.emit _ _ h)
  · intro fs1 h1 _
    exact hP.emit _ _ (hP.emit _ _ (hP.unlink _ pb fs1 h1 (hP.emit _ _ h)))
  · intro fs1 fs2 h1 h2
    exact hP.link _ pa pb fs2 h2 (hP.emit _ _ (hP.unlink _ pb fs1 h1 (hP.emit _ _ h)))

theorem Stable.on_identical_keeps {P : State → Prop} (hP : Stable P) (cfg : Config) (n fb : Nat)
    (pa pb : Path) (st : State) (h : P st) : P (on_identical cfg n fb pa pb st) := by
  unfold Dedup.on_identical
  split
  · exact hP.dispose _ _ (hP.print_pair_keeps cfg pa pb st h)
  · exact hP.dispose _ _ (hP.link_transaction_keeps n fb pa pb _ (hP.print_pair_keeps cfg pa pb st h))

theorem Stable.cand_step_keeps {P : State → Prop} (hP : Stable P) (cfg : Config) (n fb : Nat)
    (pa pb : Path) (st : State) (h : P st) : P (cand_step cfg n fb pa pb st) := by
  apply cand_step_rule
  · intro _; exact hP.after_stat_keeps fb pb st h
  · intro _ _
    exact hP.dispose _ _ (hP.emit _ _ (hP.emit _ _ (hP.after_stat_keeps fb pb st h)))
  · intro _ _ _ _
    exact hP.dispose _ _ (hP.emit _ _ (hP.emit _ _ (hP.emit _ _ (hP.after_stat_keeps fb pb st h))))
  · intro _ _ v _ _ _ _ _
    exact hP.emit _ _ (hP.after_read_keeps n fb pb v st h)
  · intro _ _ v _ _ _ _ _
    exact hP.on_identical_keeps cfg n fb pa pb _ (hP.emit _ _ (hP.after_read_keeps n fb pb v st h))

/-! ## libc facts -/

theorem fopen_some {fs : FS} {p : Path} {d : List Byte} (h : fs.fopen p = some d) :
    ∃ s, fs.node p = some s ∧ fs.readable s = true ∧ d = fs.data s := by
  unfold FS.fopen at h
  cases hn : fs.node p with
  | none => rw [hn] at h; cases h
  | some s =>
    rw [hn] at h
    dsimp only at h
    by_cases hr : fs.readable s = true
    · rw [if_pos hr] at h
      exact ⟨s, rfl, hr, (Option.some.inj h).symm⟩
    · rw [if_neg hr] at h; cases h

theorem stat_of_node {fs : FS} {p : Path} {s : Stat} (h : fs.node p = some s) (buf : Stat) :
    fs.stat p buf = s := by
  unfold FS.stat; rw [h]

theorem unlink_some {fs fs1 : FS} {p : Path} (h : fs.unlink p = some fs1) :
    (∃ o, fs.dir (fs.loc p) = some o) ∧ fs.can_unlink p = true ∧
      fs1.dir = (fun l => if l = fs.loc p then none else fs.dir l) ∧ SameEnv fs fs1 := by
  unfold FS.unlink at h
  by_cases hc : (fs.dir (fs.loc p)).isSome ∧ fs.can_unlink p = true
  · rw [if_pos hc] at h
    cases h
    exact ⟨Option.isSome_iff_exists.mp hc.1, hc.2, rfl, ⟨rfl, rfl, rfl, rfl, rfl, rfl, rfl, rfl⟩⟩
  · rw [if_neg hc] at h; cases h

theorem link_some {fs fs2 : FS} {p q : Path} (h : fs.link p q = some fs2) :
    ∃ o, fs.dir (fs.loc p) = some o ∧ fs.dir (fs.loc q) = none ∧ fs.can_link p q = true ∧
      fs2.dir = (fun l => if l = fs.loc q then some o else fs.dir l) ∧ SameEnv fs fs2 := by
  unfold FS.link at h
  cases hn : fs.dir (fs.loc p) with
  | none => rw [hn] at h; cases h
  | some o =>
    rw [hn] at h
    dsimp only at h
    by_cases hc : (fs.dir (fs.loc q)).isNone ∧ fs.can_link p q = true
    · rw [if_pos hc] at h
      cases h
      exact ⟨o, rfl, Option.isNone_iff_eq_none.mp hc.1, hc.2, rfl, ⟨rfl, rfl, rfl, rfl, rfl, rfl, rfl, rfl⟩⟩
    · rw [if_neg hc] at h; cases h

theorem SameEnv.refl_env (fs : FS) : SameEnv fs fs := ⟨rfl, rfl, rfl, rfl, rfl, rfl, rfl, rfl⟩

theorem SameEnv.trans_env {a b c : FS} (h1 : SameEnv a b) (h2 : SameEnv b c) : SameEnv a c :=
  ⟨h2.data.trans h1.data, h2.readable.trans h1.readable, h2.can_unlink.trans h1.can_unlink,
    h2.can_link.trans h1.can_link, h2.loc.trans h1.loc, h2.via.trans h1.via,
    h2.dirs.trans h1.dirs, h2.via_dirs.trans h1.via_dirs⟩

/-! ## Path resolution -/

theorem trail_head (fs : FS) (k : Nat) (l : Loc) : l ∈ fs.trail k l := by
  cases k with
  | zero => simp [FS.trail]
  | succ k =>
    simp only [FS.trail]
    split <;> simp

theorem trail_subset_trace (fs : FS) :
    ∀ (k : Nat) (l x : Loc), x ∈ fs.trail k l → x ∈ fs.trace k l := by
  intro k
  induction k with
  | zero => intro l x hx; simpa [FS.trail, FS.trace] using hx
  | succ k ih =>
    intro l x hx
    rw [FS.trail] at hx
    rw [FS.trace]
    cases hd : fs.dir l with
    | none => rw [hd] at hx; exact hx
    | some o =>
      rw [hd] at hx
      cases o with
      | file s => exact hx
      | symlink t =>
        simp only [List.mem_cons, List.mem_append] at hx ⊢
        rcases hx with hx | hx
        · exact Or.inl hx
        · exact Or.inr (Or.inr (ih _ x hx))

theorem visits_subset_reads (fs : FS) (p : Path) (x : Loc) (hx : x ∈ fs.visits p) :
    x ∈ fs.reads p :=
  List.mem_append_right _ (trail_subset_trace fs 40 (fs.loc p) x hx)

/-- Resolution depends only on the directory entries it looks at. -/
theorem walk_trail_congr {fs fs1 : FS} (hvia : fs1.via = fs.via) :
    ∀ (k : Nat) (l : Loc), (∀ x, x ∈ fs.trail k l → fs1.dir x = fs.dir x) →
      fs1.walk k l = fs.walk k l ∧ fs1.trail k l = fs.trail k l := by
  intro k
  induction k with
  | zero =>
    intro l h
    have hl := h l (trail_head fs 0 l)
    simp only [FS.walk, FS.trail, hl, and_self]
  | succ k ih =>
    intro l h
    have hl := h l (trail_head fs (k + 1) l)
    simp only [FS.walk, FS.trail, hl]
    cases hd : fs.dir l with
    | none => simp
    | some o =>
      cases o with
      | file s => simp
      | symlink t =>
        simp only
        have hsub : ∀ x, x ∈ fs.trail k (fs.via l t) → fs1.dir x = fs.dir x := by
          intro x hx
          apply h x
          simp only [FS.trail, hd]
          exact List.mem_cons_of_mem _ hx
        obtain ⟨e1, e2⟩ := ih (fs.via l t) hsub
        rw [hvia, e1, e2]
        exact ⟨rfl, rfl⟩

theorem node_congr {fs fs1 : FS} (henv : SameEnv fs fs1) (p : Path)
    (h : ∀ x, x ∈ fs.visits p → fs1.dir x = fs.dir x) :
    fs1.node p = fs.node p ∧ fs1.visits p = fs.visits p := by
  unfold FS.node FS.visits
  rw [henv.loc]
  exact walk_trail_congr henv.via 40 (fs.loc p) h

theorem walk_succ_of_some {fs : FS} {s : Stat} :
    ∀ (k : Nat) (l : Loc), fs.walk k l = some s → fs.walk (k + 1) l = some s := by
  intro k
  induction k with
  | zero =>
    intro l h
    simp only [FS.walk] at h ⊢
    cases hd : fs.dir l with
    | none => rw [hd] at h; cases h
    | some o =>
      rw [hd] at h
      cases o with
      | file s1 => exact h
      | symlink t => cases h
  | succ k ih =>
    intro l h
    rw [FS.walk] at h ⊢
    cases hd : fs.dir l with
    | none => rw [hd] at h; cases h
    | some o =>
      rw [hd] at h
      cases o with
      | file s1 => exact h
      | symlink t => exact ih _ h

/-- A resolution that passes through a directory entry ends where the
resolution from that entry ends. -/
theorem walk_of_mem_trail {fs : FS} {s : Stat} :
    ∀ (k : Nat) (l x : Loc), x ∈ fs.trail k l → fs.walk k l = some s → fs.walk k x = some s := by
  intro k
  induction k with
  | zero =>
    intro l x hx h
    simp only [FS.trail, List.mem_singleton] at hx
    rw [hx]; exact h
  | succ k ih =>
    intro l x hx h
    rw [FS.trail] at hx
    cases hd : fs.dir l with
    | none =>
      rw [hd] at hx
      simp only [List.mem_singleton] at hx
      rw [hx]; exact h
    | some o =>
      rw [hd] at hx
      cases o with
      | file s1 =>
        simp only [List.mem_singleton] at hx
        rw [hx]; exact h
      | symlink t =>
        simp only [List.mem_cons] at hx
        rcases hx with hx | hx
        · rw [hx]; exact h
        · rw [FS.walk, hd] at h
          exact walk_succ_of_some k x (ih _ x hx h)

/-- A path whose resolution passes through the directory entry of `q` leads
to the file that `q` leads to. -/
theorem node_of_mem_visits {fs : FS} {p q : Path} {s : Stat} (hx : fs.loc q ∈ fs.visits p)
    (h : fs.node p = some s) : fs.node q = some s :=
  walk_of_mem_trail 40 (fs.loc p) (fs.loc q) hx h

/-- A change of the directory entry of `p` alone leaves every path whose
resolution does not pass through it as it was. -/
theorem node_of_dir_update {fs fs1 : FS} (henv : SameEnv fs fs1) {p q : Path}
    (hdir : ∀ l, l ≠ fs.loc p → fs1.dir l = fs.dir l) (hq : fs.loc p ∉ fs.visits q) :
    fs1.node q = fs.node q ∧ fs1.visits q = fs.visits q := by
  apply node_congr henv
  intro x hx
  apply hdir
  intro e
  rw [e] at hx
  exact hq hx

/-- What `unlink` changes: the directory entry of its path, nothing else. -/
theorem dir_of_unlink {fs fs1 : FS} {p : Path} (h : fs.unlink p = some fs1) :
    ∀ l, l ≠ fs.loc p → fs1.dir l = fs.dir l := by
  intro l hl
  rw [(unlink_some h).2.2.1]
  simp only [hl, if_false]

/-- What `link` changes: the directory entry of the new path, nothing else. -/
theorem dir_of_link {fs fs2 : FS} {p q : Path} (h : fs.link p q = some fs2) :
    ∀ l, l ≠ fs.loc q → fs2.dir l = fs.dir l := by
  intro l hl
  obtain ⟨o, _, _, _, hdir, _⟩ := link_some h
  rw [hdir]
  simp only [hl, if_false]

/-- What `unlink(p)` followed by `link(q, p)` changes. -/
theorem dir_of_relink {fs fs1 fs2 : FS} {p q : Path} (h1 : fs.unlink p = some fs1)
    (h2 : fs1.link q p = some fs2) :
    SameEnv fs fs2 ∧ ∀ l, l ≠ fs.loc p → fs2.dir l = fs.dir l := by
  have e1 := (unlink_some h1).2.2.2
  obtain ⟨o, _, _, _, _, e2⟩ := link_some h2
  refine ⟨e1.trans_env e2, ?_⟩
  intro l hl
  rw [dir_of_link h2 l (by rw [e1.loc]; exact hl), dir_of_unlink h1 l hl]

theorem node_of_unlink {fs fs1 : FS} {p q : Path} (h : fs.unlink p = some fs1)
    (hq : fs.loc p ∉ fs.visits q) : fs1.node q = fs.node q ∧ fs1.visits q = fs.visits q :=
  node_of_dir_update (unlink_some h).2.2.2 (dir_of_unlink h) hq

theorem node_of_relink {fs fs1 fs2 : FS} {p q r : Path} (h1 : fs.unlink p = some fs1)
    (h2 : fs1.link q p = some fs2) (hr : fs.loc p ∉ fs.visits r) :
    fs2.node r = fs.node r ∧ fs2.visits r = fs.visits r :=
  node_of_dir_update (dir_of_relink h1 h2).1 (dir_of_relink h1 h2).2 hr

/-! ## Frame facts -/

theorem Frame.refl_frame (mem : List entry) : Frame mem mem :=
  ⟨rfl, fun _ e h => ⟨e, h, rfl, Or.inl rfl⟩⟩

theorem Frame.modify_frame {mem es : List entry} (h : Frame mem es) (i : Nat) :
    Frame mem (es.modify dispose_entry i) := by
  refine ⟨by rw [List.length_modify]; exact h.1, ?_⟩
  intro j e hj
  rw [List.getElem?_modify] at hj
  by_cases hij : i = j
  · subst hij
    simp only [if_true] at hj
    cases he : es[i]? with
    | none => rw [he] at hj; cases hj
    | some e1 =>
      rw [he] at hj
      obtain ⟨e0, h0, hs, _⟩ := h.2 i e1 he
      cases hj
      exact ⟨e0, h0, hs, Or.inr rfl⟩
  · simp only [hij, if_false] at hj
    have hj2 : es[j]? = some e := by simpa using hj
    exact h.2 j e hj2

theorem Frame.live_frame {mem es : List entry} (h : Frame mem es) {i : Nat} {p : Path}
    (hl : Live es i p) : Live mem i p := by
  obtain ⟨e, he, hp⟩ := hl
  obtain ⟨e0, h0, _, hn⟩ := h.2 i e he
  refine ⟨e0, h0, ?_⟩
  rcases hn with hn | hn
  · rw [← hn]; exact hp
  · rw [hn] at hp; cases hp

theorem stable_frame (mem : List entry) : Stable (fun st => Frame mem st.entries) where
  emit := fun _ _ h => h
  dispose := fun _ i h => h.modify_frame i
  set_sfa := fun _ _ h => h
  set_sfb := fun _ _ h => h
  set_bufs := fun _ _ _ h => h
  unlink := fun _ _ _ _ h => h
  link := fun _ _ _ _ _ h => h

/-- `cand_step` never changes the halt flag. -/
theorem cand_step_halt (cfg : Config) (n fb : Nat) (pa pb : Path) (st : State) :
    (cand_step cfg n fb pa pb st).halt = st.halt := by
  have hS : Stable (fun s : State => s.halt = st.halt) :=
    { emit := fun _ _ h => h, dispose := fun _ _ h => h, set_sfa := fun _ _ h => h,
      set_sfb := fun _ _ h => h, set_bufs := fun _ _ _ h => h,
      unlink := fun _ _ _ _ h => h, link := fun _ _ _ _ _ h => h }
  exact hS.cand_step_keeps cfg n fb pa pb st rfl

/-! ## Claims about the block comparison -/

/-- C2: for a block size of at least one and two files of equal length, the
read loop returns, its verdict is identical (`z == 0`) exactly when the two
byte sequences are equal, and a different verdict is reached at the first
block pair that differs (all earlier block pairs are equal). -/
theorem comparator_equal_length (blk : Nat) (hblk : 1 ≤ blk) (ba bb a b : List Byte)
    (hlen : a.length = b.length) :
    ∃ v, compare_contents blk ba bb a b = some v ∧
      (v.z = 0 ↔ a = b) ∧
      (v.z ≠ 0 → block blk v.blocks a ≠ block blk v.blocks b ∧
        ∀ i, i < v.blocks → block blk i a = block blk i b) :=
  compare_contents_equal_length blk hblk ba bb a b hlen

/-- Witness for C2: block size 2, two files of three bytes that differ in
the second block. -/
theorem comparator_equal_length_witness :
    (1 ≤ 2 ∧ ([1, 2, 3] : List Byte).length = ([1, 2, 4] : List Byte).length) ∧
    ∃ v, compare_contents 2 [0, 0] [0, 0] [1, 2, 3] [1, 2, 4] = some v ∧
      (v.z = 0 ↔ ([1, 2, 3] : List Byte) = [1, 2, 4]) ∧
      (v.z ≠ 0 → block 2 v.blocks [1, 2, 3] ≠ block 2 v.blocks [1, 2, 4] ∧
        ∀ i, i < v.blocks → block 2 i [1, 2, 3] = block 2 i [1, 2, 4]) :=
  ⟨⟨by decide, by decide⟩,
    comparator_equal_length 2 (by decide) [0, 0] [0, 0] [1, 2, 3] [1, 2, 4] (by decide)⟩

/-- C3, refuted as stated: the candidate `b` is currently longer than the
anchor `a` (2 bytes against 1), yet the read loop ends with `z == 0`, the pair
is printed and `b` is unlinked and linked to `a`. A shorter candidate can be
found identical too: anchor `[1, 1]` against candidate `[1]` ends with
`z == 0`, the second comparison being made against the byte left in `bb`. -/
theorem identical_verdict_on_longer_candidate :
    (fs_grown.data ⟨1, 10⟩).length ≠ (fs_grown.data ⟨1, 11⟩).length ∧
    (compare_contents 1 [0] [0] (fs_grown.data ⟨1, 10⟩) (fs_grown.data ⟨1, 11⟩)).map
      Verdict.z = some 0 ∧
    (compare_contents 1 [0] [0] [1, 1] [1]).map Verdict.z = some 0 ∧
    (dedup_entries ⟨1, true, false⟩ 2
      (State.init mem_grown fs_grown [0] [0] ⟨0, 0⟩ ⟨0, 0⟩)).events =
      [Event.stat 0, Event.read_size 1, Event.stat 1, Event.fopen 0 true, Event.fopen 1 true,
        Event.compare 0 1 true, Event.print_pair "a" "b", Event.unlink 0 1 true,
        Event.link 0 1 true, Event.dispose 1, Event.read_size 2, Event.dispose 0] := by
  decide

/-- C3, amended: for a block size of at least one the read loop returns; the
identical verdict is reached only if the two files agree on their common
length, and when the candidate is at least as long as the anchor it is reached
exactly when the anchor's bytes are an initial segment of the candidate's. -/
theorem comparator_any_length (blk : Nat) (hblk : 1 ≤ blk) (ba bb a b : List Byte) :
    ∃ v, compare_contents blk ba bb a b = some v ∧
      (v.z = 0 → a.take (min a.length b.length) = b.take (min a.length b.length)) ∧
      (a.length ≤ b.length → (v.z = 0 ↔ a <+: b)) := by
  obtain ⟨v, hv⟩ := compare_contents_total blk ba bb a b
  exact ⟨v, hv, read_loop_identical_agree blk hblk _ _ _ _ _ _ v hv,
    fun hlen => read_loop_longer blk hblk _ _ _ _ _ _ v hlen hv⟩

/-- Witness for the amended C3: block size 1, anchor `[1]`, candidate
`[1, 2]`. -/
theorem comparator_any_length_witness :
    1 ≤ 1 ∧
    ∃ v, compare_contents 1 [0] [0] [1] [1, 2] = some v ∧
      (v.z = 0 → ([1] : List Byte).take (min ([1] : List Byte).length ([1, 2] : List Byte).length)
        = ([1, 2] : List Byte).take
            (min ([1] : List Byte).length ([1, 2] : List Byte).length)) ∧
      (([1] : List Byte).length ≤ ([1, 2] : List Byte).length →
        (v.z = 0 ↔ ([1] : List Byte) <+: [1, 2])) :=
  ⟨by decide, comparator_any_length 1 (by decide) [0] [0] [1] [1, 2]⟩

/-! ## Claims about one candidate -/

theorem events_emit (st : State) (ev : Event) : (st.emit ev).events = st.events ++ [ev] := by
  simp [State.events]

theorem events_dispose (st : State) (i : Nat) :
    (st.dispose i).events = st.events ++ [Event.dispose i] := by
  simp [State.events]

@[simp] theorem events_set_fs (st : State) (fs : FS) : (st.set_fs fs).events = st.events := rfl
@[simp] theorem events_set_sfa (st : State) (s : Stat) : (st.set_sfa s).events = st.events := rfl
@[simp] theorem events_set_sfb (st : State) (s : Stat) : (st.set_sfb s).events = st.events := rfl
@[simp] theorem events_set_bufs (st : State) (a b : List Byte) :
    (st.set_bufs a b).events = st.events := rfl
@[simp] theorem events_stop (st : State) (h : Halt) : (st.stop h).events = st.events := rfl

theorem events_after_read (n fb : Nat) (pb : Path) (v : Verdict) (st : State) :
    (after_read n fb pb v st).events =
      st.events ++ [Event.stat fb, Event.fopen n true, Event.fopen fb true] := by
  simp [State.events]

theorem events_print_pair (cfg : Config) (pa pb : Path) (st : State) :
    (print_pair cfg pa pb st).events =
      st.events ++ (if cfg.verbose then [Event.print_pair pa pb] else []) := by
  unfold print_pair; split <;> simp [events_emit]

/-- What `cand_step` does once the read loop has ended with `z == 0`. -/
theorem cand_step_identical (cfg : Config) (n fb : Nat) (pa pb : Path) (st : State)
    (fda fdb : List Byte) (v : Verdict) (ht : link_test pb st)
    (ha : st.fs.fopen pa = some fda) (hb : st.fs.fopen pb = some fdb)
    (hv : compare_contents cfg.blk_size st.ba st.bb fda fdb = some v) (hz : v.z = 0) :
    cand_step cfg n fb pa pb st =
      on_identical cfg n fb pa pb ((after_read n fb pb v st).emit (Event.compare n fb true)) := by
  unfold cand_step
  rw [if_pos ht, ha]
  dsimp only
  rw [hb]
  dsimp only
  rw [hv]
  dsimp only
  rw [if_pos hz]

/-- C7: in a real run, for a pair found identical, `link` is called only
after `unlink` of the candidate has succeeded (after a failed `unlink` the
next call is `dispose_entry`), and in all three cases (unlink fails, link
fails, both succeed) the candidate's slot is disposed, the other slots and
the halt flag are untouched, so the scan goes on with the next candidate under
the same anchor. -/
theorem link_transaction_failure_handling (cfg : Config) (n fb : Nat) (pa pb : Path)
    (st : State) (fda fdb : List Byte) (v : Verdict) (hreal : cfg.dry_run = false)
    (ht : link_test pb st) (ha : st.fs.fopen pa = some fda) (hb : st.fs.fopen pb = some fdb)
    (hv : compare_contents cfg.blk_size st.ba st.bb fda fdb = some v) (hz : v.z = 0) :
    (∃ evs, (cand_step cfg n fb pa pb st).events =
        st.events ++ [Event.stat fb, Event.fopen n true, Event.fopen fb true,
          Event.compare n fb true] ++
          (if cfg.verbose then [Event.print_pair pa pb] else []) ++ evs ∧
      ((st.fs.unlink pb = none ∧
          evs = [Event.unlink n fb false, Event.print_error pb, Event.dispose fb] ∧
          (cand_step cfg n fb pa pb st).fs = st.fs) ∨
       (∃ fs1, st.fs.unlink pb = some fs1 ∧ fs1.link pa pb = none ∧
          evs = [Event.unlink n fb true, Event.link n fb false, Event.print_error pb,
            Event.dispose fb] ∧
          (cand_step cfg n fb pa pb st).fs = fs1) ∨
       (∃ fs1 fs2, st.fs.unlink pb = some fs1 ∧ fs1.link pa pb = some fs2 ∧
          evs = [Event.unlink n fb true, Event.link n fb true, Event.dispose fb] ∧
          (cand_step cfg n fb pa pb st).fs = fs2))) ∧
    (cand_step cfg n fb pa pb st).entries = st.entries.modify dispose_entry fb ∧
    (cand_step cfg n fb pa pb st).halt = st.halt := by
  rw [cand_step_identical cfg n fb pa pb st fda fdb v ht ha hb hv hz]
  unfold on_identical
  rw [hreal]
  simp only [Bool.false_eq_true, if_false]
  apply link_transaction_rule n fb pa pb _
    (fun s => (∃ evs, (s.dispose fb).events =
        st.events ++ [Event.stat fb, Event.fopen n true, Event.fopen fb true,
          Event.compare n fb true] ++
          (if cfg.verbose then [Event.print_pair pa pb] else []) ++ evs ∧
      ((st.fs.unlink pb = none ∧
          evs = [Event.unlink n fb false, Event.print_error pb, Event.dispose fb] ∧
          (s.dispose fb).fs = st.fs) ∨
       (∃ fs1, st.fs.unlink pb = some fs1 ∧ fs1.link pa pb = none ∧
          evs = [Event.unlink n fb true, Event.link n fb false, Event.print_error pb,
            Event.dispose fb] ∧
          (s.dispose fb).fs = fs1) ∨
       (∃ fs1 fs2, st.fs.unlink pb = some fs1 ∧ fs1.link pa pb = some fs2 ∧
          evs = [Event.unlink n fb true, Event.link n fb true, Event.dispose fb] ∧
          (s.dispose fb).fs = fs2))) ∧
    (s.dispose fb).entries = st.entries.modify dispose_entry fb ∧
    (s.dispose fb).halt = st.halt)
  · intro h1
    simp only [print_pair_fs, emit_fs, after_read_fs] at h1
    refine ⟨⟨_, ?_, Or.inl ⟨h1, rfl, ?_⟩⟩, ?_, ?_⟩
    · simp [events_dispose, events_emit, events_print_pair, events_after_read]
    · simp
    · simp
    · simp
  · intro fs1 h1 h2
    simp only [print_pair_fs, emit_fs, after_read_fs] at h1
    refine ⟨⟨_, ?_, Or.inr (Or.inl ⟨fs1, h1, h2, rfl, ?_⟩)⟩, ?_, ?_⟩
    · simp [events_dispose, events_emit, events_print_pair, events_after_read]
    · simp
    · simp
    · simp
  · intro fs1 fs2 h1 h2
    simp only [print_pair_fs, emit_fs, after_read_fs] at h1
    refine ⟨⟨_, ?_, Or.inr (Or.inr ⟨fs1, fs2, h1, h2, rfl, ?_⟩)⟩, ?_, ?_⟩
    · simp [events_dispose, events_emit, events_print_pair, events_after_read]
    · simp
    · simp
    · simp

theorem getElem?_modify_dispose (es : List entry) (i j : Nat) (e : entry)
    (h : (es.modify dispose_entry i)[j]? = some e) :
    ∃ e1, es[j]? = some e1 ∧ e.size = e1.size ∧
      ((i = j ∧ e.fname = none) ∨ (i ≠ j ∧ e = e1)) := by
  rw [List.getElem?_modify] at h
  by_cases hij : i = j
  · subst hij
    simp only [if_true] at h
    cases he : es[i]? with
    | none => rw [he] at h; cases h
    | some e1 =>
      rw [he] at h
      cases h
      exact ⟨e1, rfl, rfl, Or.inl ⟨rfl, rfl⟩⟩
  · simp only [hij, if_false] at h
    have h2 : es[j]? = some e := by simpa using h
    exact ⟨e, h2, rfl, Or.inr ⟨hij, rfl⟩⟩

theorem Dead.modify_dead {es : List entry} {j : Nat} (h : Dead es j) (i : Nat) :
    Dead (es.modify dispose_entry i) j := by
  intro e he
  obtain ⟨e1, h1, _, hc⟩ := getElem?_modify_dispose es i j e he
  rcases hc with ⟨_, hn⟩ | ⟨_, rfl⟩
  · exact hn
  · exact h e h1

theorem dead_modify_self (es : List entry) (i : Nat) : Dead (es.modify dispose_entry i) i := by
  intro e he
  obtain ⟨e1, _, _, hc⟩ := getElem?_modify_dispose es i i e he
  rcases hc with ⟨_, hn⟩ | ⟨hne, _⟩
  · exact hn
  · exact absurd rfl hne

theorem live_not_dead {es : List entry} {i : Nat} {p : Path} (h : Live es i p)
    (hd : Dead es i) : False := by
  obtain ⟨e, he, hp⟩ := h
  rw [hd e he] at hp
  cases hp

theorem Guarded.mono {mem : List entry} {l l' : List (FS × Event)} {x : FS × Event}
    (h : Guarded mem l x) (hl : ∀ y, y ∈ l → y ∈ l') : Guarded mem l' x := by
  obtain ⟨fs, ev⟩ := x
  cases ev with
  | link i j ok =>
    obtain ⟨fs0, eb, pb, h1, h2, h3, h4, h5⟩ := h
    exact ⟨fs0, eb, pb, h1, h2, h3, h4, hl _ h5⟩
  | unlink i j ok => exact h
  | read_size j => trivial
  | stat i => trivial
  | fopen i ok => trivial
  | compare i j b => trivial
  | print_pair a b => trivial
  | print_error p => trivial
  | dispose i => trivial

theorem LogInv.init_log (mem : List entry) (fs : FS) (ba0 bb0 : List Byte) (sfa0 sfb0 : Stat) :
    LogInv mem (State.init mem fs ba0 bb0 sfa0 sfb0) where
  frame := Frame.refl_frame mem
  dead := fun i h => by simp [State.init, State.events] at h
  ordered := by simp [State.init, State.events, Ordered]
  used_live := fun ev h => by simp [State.init, State.events] at h
  guarded := fun x h => by simp [State.init] at h

theorem LogInv.emit_log {mem : List entry} {st : State} (h : LogInv mem st) (ev : Event)
    (hnd : ∀ i, ev ≠ Event.dispose i)
    (hlive : ∀ i, i ∈ ev.uses → ∃ p, Live st.entries i p)
    (hg : Guarded mem st.out (st.fs, ev)) : LogInv mem (st.emit ev) where
  frame := h.frame
  dead := by
    intro i hi
    rw [events_emit, List.mem_append] at hi
    rcases hi with hi | hi
    · exact h.dead i hi
    · simp only [List.mem_singleton] at hi
      exact absurd hi.symm (hnd i)
  ordered := by
    unfold Ordered
    rw [events_emit, List.pairwise_append]
    refine ⟨h.ordered, List.pairwise_singleton _ _, ?_⟩
    intro a ha b hb i hai hmem
    simp only [List.mem_singleton] at hb
    subst hb
    subst hai
    obtain ⟨p, hp⟩ := hlive i hmem
    exact live_not_dead hp (h.dead i ha)
  used_live := by
    intro e he i hi
    rw [events_emit, List.mem_append] at he
    rcases he with he | he
    · exact h.used_live e he i hi
    · simp only [List.mem_singleton] at he
      subst he
      obtain ⟨p, hp⟩ := hlive i hi
      exact ⟨p, h.frame.live_frame hp⟩
  guarded := by
    intro x hx
    rw [emit_out, List.mem_append] at hx
    rcases hx with hx | hx
    · exact (h.guarded x hx).mono (fun y hy => List.mem_append_left _ hy)
    · simp only [List.mem_singleton] at hx
      subst hx
      exact hg.mono (fun y hy => List.mem_append_left _ hy)

/-- Events that work on no file keep the log invariant. -/
theorem LogInv.emit_plain_log {mem : List entry} {st : State} (h : LogInv mem st) (ev : Event)
    (hnd : ∀ i, ev ≠ Event.dispose i) (hu : ev.uses = [])
    (hg : Guarded mem st.out (st.fs, ev)) : LogInv mem (st.emit ev) :=
  h.emit_log ev hnd (fun i hi => by rw [hu] at hi; cases hi) hg

theorem LogInv.dispose_log {mem : List entry} {st : State} (h : LogInv mem st) (i : Nat) :
    LogInv mem (st.dispose i) where
  frame := h.frame.modify_frame i
  dead := by
    intro j hj
    rw [events_dispose, List.mem_append] at hj
    rcases hj with hj | hj
    · exact (h.dead j hj).modify_dead i
    · simp only [List.mem_singleton, Event.dispose.injEq] at hj
      subst hj
      exact dead_modify_self _ _
  ordered := by
    unfold Ordered
    rw [events_dispose, List.pairwise_append]
    refine ⟨h.ordered, List.pairwise_singleton _ _, ?_⟩
    intro a _ b hb i _ hmem
    simp only [List.mem_singleton] at hb
    subst hb
    simp [Event.uses] at hmem
  used_live := by
    intro e he j hj
    rw [events_dispose, List.mem_append] at he
    rcases he with he | he
    · exact h.used_live e he j hj
    · simp only [List.mem_singleton] at he
      subst he
      simp [Event.uses] at hj
  guarded := by
    intro x hx
    rw [dispose_out, List.mem_append] at hx
    rcases hx with hx | hx
    · exact (h.guarded x hx).mono (fun y hy => List.mem_append_left _ hy)
    · simp only [List.mem_singleton] at hx
      subst hx
      trivial

theorem LogInv.of_eq_log {mem : List entry} {st st' : State} (h : LogInv mem st)
    (he : st'.entries = st.entries) (ho : st'.out = st.out) : LogInv mem st' where
  frame := by rw [he]; exact h.frame
  dead := by
    have : st'.events = st.events := by simp [State.events, ho]
    rw [this, he]; exact h.dead
  ordered := by
    have : st'.events = st.events := by simp [State.events, ho]
    rw [this]; exact h.ordered
  used_live := by
    have : st'.events = st.events := by simp [State.events, ho]
    rw [this]; exact h.used_live
  guarded := by rw [ho]; exact h.guarded

theorem LogInv.after_stat_log {mem : List entry} {st : State} (h : LogInv mem st) (fb : Nat)
    (pb : Path) (hfb : Live st.entries fb pb) : LogInv mem (after_stat fb pb st) := by
  have h1 : LogInv mem (st.emit (Event.stat fb)) :=
    h.emit_log _ (fun i => by simp) (fun i hi => by
      simp only [Event.uses, List.mem_singleton] at hi; subst hi; exact ⟨pb, hfb⟩) trivial
  exact h1.of_eq_log rfl rfl

theorem LogInv.after_read_log {mem : List entry} {st : State} (h : LogInv mem st) (n fb : Nat)
    (pa pb : Path) (v : Verdict) (hn : Live st.entries n pa) (hfb : Live st.entries fb pb) :
    LogInv mem (after_read n fb pb v st) := by
  have h1 := h.after_stat_log fb pb hfb
  have h2 : LogInv mem ((Dedup.after_stat fb pb st).emit (Event.fopen n true)) :=
    h1.emit_log _ (fun i => by simp) (fun i hi => by
      simp only [Event.uses, List.mem_singleton] at hi; subst hi; exact ⟨pa, hn⟩) trivial
  have h3 : LogInv mem (((Dedup.after_stat fb pb st).emit (Event.fopen n true)).emit
      (Event.fopen fb true)) :=
    h2.emit_log _ (fun i => by simp) (fun i hi => by
      simp only [Event.uses, List.mem_singleton] at hi; subst hi; exact ⟨pb, hfb⟩) trivial
  exact h3.of_eq_log rfl rfl

theorem LogInv.print_pair_log {mem : List entry} {st : State} (h : LogInv mem st) (cfg : Config)
    (pa pb : Path) : LogInv mem (print_pair cfg pa pb st) := by
  unfold Dedup.print_pair
  split
  · exact h.emit_plain_log _ (fun i => by simp) rfl trivial
  · exact h

/-- The pair about to be linked passes the guard, and the resolution of the
anchor's path does not pass through the candidate's directory entry (it would
end at the candidate's inode). -/
theorem linkable_of_test {mem : List entry} {st : State} {n fb : Nat} {pa pb : Path}
    {fda fdb : List Byte} (hf : Frame mem st.entries) (hn : Live st.entries n pa)
    (hfb : Live st.entries fb pb)
    (hsize : ∀ ea eb, st.entries[n]? = some ea → st.entries[fb]? = some eb → ea.size = eb.size)
    (hd : AnchorStat pa st) (ht : link_test pb st) (ha : st.fs.fopen pa = some fda)
    (hb : st.fs.fopen pb = some fdb) :
    Linkable mem st.fs n fb ∧ st.fs.loc pb ∉ st.fs.visits pa := by
  obtain ⟨sa, hsa, _, _⟩ := fopen_some ha
  obtain ⟨sb, hsb, _, _⟩ := fopen_some hb
  have e1 : sa = st.sfa := hd sa hsa
  have e2 : st.fs.stat pb st.sfb = sb := stat_of_node hsb _
  obtain ⟨ea, hea, hpa⟩ := hn
  obtain ⟨eb, heb, hpb⟩ := hfb
  obtain ⟨ea0, hea0, hsa0, hna⟩ := hf.2 n ea hea
  obtain ⟨eb0, heb0, hsb0, hnb⟩ := hf.2 fb eb heb
  have hna' : ea0.fname = some pa := by
    rcases hna with hna | hna
    · rw [← hna]; exact hpa
    · rw [hna] at hpa; cases hpa
  have hnb' : eb0.fname = some pb := by
    rcases hnb with hnb | hnb
    · rw [← hnb]; exact hpb
    · rw [hnb] at hpb; cases hpb
  unfold link_test at ht
  rw [e2, ← e1] at ht
  refine ⟨⟨ea0, eb0, pa, pb, sa, sb, hea0, heb0, ?_, hna', hnb', hsa, hsb, ht.1⟩, ?_⟩
  · rw [← hsa0, ← hsb0]; exact hsize ea eb hea heb
  · intro hab
    have hsb2 := node_of_mem_visits hab hsa
    rw [hsb] at hsb2
    cases hsb2
    exact ht.2 rfl

theorem LogInv.link_transaction_log {mem : List entry} {st : State} (h : LogInv mem st)
    (n fb : Nat) (pa pb : Path) (hn : Live st.entries n pa) (hfb : Live st.entries fb pb)
    (hl : Linkable mem st.fs n fb) (hne : st.fs.loc pb ∉ st.fs.visits pa)
    (hd : AnchorStat pa st) :
    LogInv mem (link_transaction n fb pa pb st) ∧ AnchorStat pa (link_transaction n fb pa pb st) ∧
      (link_transaction n fb pa pb st).entries = st.entries := by
  have huses : ∀ ok i, i ∈ (Event.unlink n fb ok).uses → ∃ p, Live st.entries i p := by
    intro ok i hi
    simp only [Event.uses, List.mem_cons, List.mem_singleton, List.not_mem_nil, or_false] at hi
    rcases hi with rfl | rfl
    · exact ⟨pa, hn⟩
    · exact ⟨pb, hfb⟩
  have huses2 : ∀ ok i, i ∈ (Event.link n fb ok).uses → ∃ p, Live st.entries i p := by
    intro ok i hi
    simp only [Event.uses, List.mem_cons, List.mem_singleton, List.not_mem_nil, or_false] at hi
    rcases hi with rfl | rfl
    · exact ⟨pa, hn⟩
    · exact ⟨pb, hfb⟩
  obtain ⟨eb0, heb0, hpb0⟩ := h.frame.live_frame hfb
  apply link_transaction_rule n fb pa pb st
    (fun s => LogInv mem s ∧ AnchorStat pa s ∧ s.entries = st.entries)
  · intro _
    refine ⟨?_, hd, rfl⟩
    exact (h.emit_log _ (fun i => by simp) (huses false) hl).emit_plain_log _ (fun i => by simp) rfl
      trivial
  · intro fs1 h1 _
    have k1 : LogInv mem ((st.emit (Event.unlink n fb true)).set_fs fs1) :=
      (h.emit_log _ (fun i => by simp) (huses true) hl).of_eq_log rfl rfl
    have k2 : LogInv mem (((st.emit (Event.unlink n fb true)).set_fs fs1).emit
        (Event.link n fb false)) :=
      k1.emit_log _ (fun i => by simp) (huses2 false) ⟨st.fs, eb0, pb, heb0, hpb0, h1, hl, by simp⟩
    refine ⟨k2.emit_plain_log _ (fun i => by simp) rfl trivial, ?_, rfl⟩
    intro s hs
    simp only [emit_fs, set_fs_fs, emit_sfa, set_fs_sfa] at hs ⊢
    rw [(node_of_unlink h1 hne).1] at hs
    exact hd s hs
  · intro fs1 fs2 h1 h2
    have k1 : LogInv mem ((st.emit (Event.unlink n fb true)).set_fs fs1) :=
      (h.emit_log _ (fun i => by simp) (huses true) hl).of_eq_log rfl rfl
    have k2 : LogInv mem (((st.emit (Event.unlink n fb true)).set_fs fs1).emit
        (Event.link n fb true)) :=
      k1.emit_log _ (fun i => by simp) (huses2 true) ⟨st.fs, eb0, pb, heb0, hpb0, h1, hl, by simp⟩
    refine ⟨k2.of_eq_log rfl rfl, ?_, rfl⟩
    intro s hs
    simp only [emit_fs, set_fs_fs, emit_sfa, set_fs_sfa] at hs ⊢
    rw [(node_of_relink h1 h2 hne).1] at hs
    exact hd s hs

theorem live_of_modify {es : List entry} {i j : Nat} {p : Path}
    (h : Live (es.modify dispose_entry i) j p) : Live es j p := by
  obtain ⟨e, he, hp⟩ := h
  obtain ⟨e1, h1, _, hc⟩ := getElem?_modify_dispose es i j e he
  rcases hc with ⟨_, hn⟩ | ⟨_, rfl⟩
  · rw [hn] at hp; cases hp
  · exact ⟨e, h1, hp⟩

theorem stable_name_is (n : Nat) (pa : Path) : Stable (NameIs n pa) where
  emit := fun _ _ h => h
  dispose := fun _ _ h p hp => h p (live_of_modify hp)
  set_sfa := fun _ _ h => h
  set_sfb := fun _ _ h => h
  set_bufs := fun _ _ _ h => h
  unlink := fun _ _ _ _ h => h
  link := fun _ _ _ _ _ h => h

theorem AnchorStat.of_eq_anchor {pa : Path} {st st' : State} (h : AnchorStat pa st)
    (hfs : st'.fs = st.fs) (hsfa : st'.sfa = st.sfa) : AnchorStat pa st' := by
  intro s hs
  rw [hfs] at hs
  rw [hsfa]
  exact h s hs

theorem uses_pair_live {st : State} {n fb : Nat} {pa pb : Path} (hn : Live st.entries n pa)
    (hfb : Live st.entries fb pb) (i : Nat) (hi : i ∈ [n, fb]) : ∃ p, Live st.entries i p := by
  simp only [List.mem_cons, List.mem_singleton, List.not_mem_nil, or_false] at hi
  rcases hi with rfl | rfl
  · exact ⟨pa, hn⟩
  · exact ⟨pb, hfb⟩

theorem LogInv.cand_step_log {mem : List entry} {st : State} (h : LogInv mem st) (cfg : Config)
    (n fb : Nat) (pa pb : Path) (hn : Live st.entries n pa) (hfb : Live st.entries fb pb)
    (hsize : ∀ ea eb, st.entries[n]? = some ea → st.entries[fb]? = some eb → ea.size = eb.size)
    (hd : AnchorStat pa st) :
    LogInv mem (cand_step cfg n fb pa pb st) ∧ AnchorStat pa (cand_step cfg n fb pa pb st) := by
  apply cand_step_rule cfg n fb pa pb st (fun s => LogInv mem s ∧ AnchorStat pa s)
  · intro _
    exact ⟨h.after_stat_log fb pb hfb, hd.of_eq_anchor (by simp) (by simp)⟩
  · intro _ _
    refine ⟨?_, hd.of_eq_anchor (by simp) (by simp)⟩
    have k1 := h.after_stat_log fb pb hfb
    have k2 : LogInv mem ((Dedup.after_stat fb pb st).emit (Event.fopen n false)) :=
      k1.emit_log _ (fun i => by simp) (fun i hi => by
        simp only [Event.uses, List.mem_singleton] at hi; subst hi; exact ⟨pa, hn⟩) trivial
    exact (k2.emit_plain_log (Event.print_error pa) (fun i => by simp) rfl trivial).dispose_log n
  · intro _ _ _ _
    refine ⟨?_, hd.of_eq_anchor (by simp) (by simp)⟩
    have k1 := h.after_stat_log fb pb hfb
    have k2 : LogInv mem ((Dedup.after_stat fb pb st).emit (Event.fopen n true)) :=
      k1.emit_log _ (fun i => by simp) (fun i hi => by
        simp only [Event.uses, List.mem_singleton] at hi; subst hi; exact ⟨pa, hn⟩) trivial
    have k3 : LogInv mem (((Dedup.after_stat fb pb st).emit (Event.fopen n true)).emit
        (Event.fopen fb false)) :=
      k2.emit_log _ (fun i => by simp) (fun i hi => by
        simp only [Event.uses, List.mem_singleton] at hi; subst hi; exact ⟨pb, hfb⟩) trivial
    exact (k3.emit_plain_log (Event.print_error pb) (fun i => by simp) rfl trivial).dispose_log fb
  · intro _ _ v _ _ _ _ _
    refine ⟨?_, hd.of_eq_anchor (by simp) (by simp)⟩
    exact (h.after_read_log n fb pa pb v hn hfb).emit_log _ (fun i => by simp)
      (uses_pair_live hn hfb) trivial
  · intro fda fdb v ht ha hb _ _
    have k1 : LogInv mem ((Dedup.after_read n fb pb v st).emit (Event.compare n fb true)) :=
      (h.after_read_log n fb pa pb v hn hfb).emit_log _ (fun i => by simp)
        (uses_pair_live hn hfb) trivial
    have k2 := k1.print_pair_log cfg pa pb
    unfold on_identical
    split
    · exact ⟨k2.dispose_log fb, hd.of_eq_anchor (by simp) (by simp)⟩
    · obtain ⟨hl, hne⟩ := linkable_of_test h.frame hn hfb hsize hd ht ha hb
      have hd2 : AnchorStat pa (Dedup.print_pair cfg pa pb
          ((Dedup.after_read n fb pb v st).emit (Event.compare n fb true))) :=
        hd.of_eq_anchor (by simp) (by simp)
      obtain ⟨r1, r2, _⟩ := k2.link_transaction_log n fb pa pb
        (by simpa using hn) (by simpa using hfb) (by simpa using hl) (by simpa using hne) hd2
      exact ⟨r1.dispose_log fb, r2⟩

/-- The log invariant is kept by the `while` loop. -/
theorem LogInv.scan_log {mem : List entry} (cfg : Config) (n : Nat) (pa : Path) :
    ∀ (fuel fb : Nat) (st : State), LogInv mem st → AnchorStat pa st → NameIs n pa st →
      LogInv mem (scan cfg n fuel fb st) := by
  intro fuel fb st h1 h2 h3
  apply scan_rule cfg n (fun _ s => LogInv mem s ∧ AnchorStat pa s ∧ NameIs n pa s)
    (fun s => LogInv mem s) _ _ _ _ _ _ _ _ fuel fb st ⟨h1, h2, h3⟩
  · intro fb st fa p eb pb _ hfa hp heb hs hpb ⟨k1, k2, k3⟩
    have hp' : p = pa := k3 p ⟨fa, hfa, hp⟩
    subst hp'
    have k1' : LogInv mem (st.emit (Event.read_size fb)) :=
      k1.emit_plain_log _ (fun i => by simp) rfl trivial
    obtain ⟨r1, r2⟩ := k1'.cand_step_log cfg n fb p pb ⟨fa, hfa, hp⟩ ⟨eb, heb, hpb⟩
      (by
        intro ea eb' h1 h2
        simp only [emit_entries] at h1 h2
        rw [hfa] at h1; rw [heb] at h2
        cases h1; cases h2; exact hs) k2
    exact ⟨r1, r2, (stable_name_is n p).cand_step_keeps cfg n fb p pb _ k3⟩
  · intro fb st fa p eb _ _ _ _ _ _ ⟨k1, k2, k3⟩
    exact ⟨k1.emit_plain_log _ (fun i => by simp) rfl trivial, k2, k3⟩
  · intro _ _ _ h; exact h.1
  · intro _ _ _ _ h; exact h.1.of_eq_log rfl rfl
  · intro _ _ _ _ _ _ h; exact h.1
  · intro _ _ _ _ _ _ _ _ h
    exact (h.1.emit_plain_log (Event.read_size _) (fun i => by simp) rfl trivial).of_eq_log rfl rfl
  · intro _ _ _ _ _ _ _ _ _ _ h
    exact h.1.emit_plain_log _ (fun i => by simp) rfl trivial
  · intro _ _ h; exact h.1.of_eq_log rfl rfl

theorem LogInv.anchor_step_log {mem : List entry} (cfg : Config) (n : Nat) (st : State)
    (h : LogInv mem st) : LogInv mem (anchor_step cfg n st) := by
  have key : ∀ fa pa, st.entries[n]? = some fa → fa.fname = some pa →
      LogInv mem (anchor_scan cfg n pa st) := by
    intro fa pa hfa hpa
    unfold anchor_scan
    apply LogInv.scan_log cfg n pa
    · have k1 : LogInv mem (st.emit (Event.stat n)) :=
        h.emit_log _ (fun i => by simp) (fun i hi => by
          simp only [Event.uses, List.mem_singleton] at hi; subst hi
          exact ⟨pa, fa, hfa, hpa⟩) trivial
      exact k1.of_eq_log rfl rfl
    · intro s hs
      simp only [set_sfa_fs, emit_fs, set_sfa_sfa] at hs ⊢
      exact (stat_of_node hs _).symm
    · intro p hp
      obtain ⟨e, he, hpe⟩ := hp
      simp only [set_sfa_entries, emit_entries] at he
      rw [hfa] at he
      cases he
      rw [hpa] at hpe
      exact (Option.some.inj hpe).symm
  apply anchor_step_rule
  · intro _; exact h
  · intro _ _; exact h.of_eq_log rfl rfl
  · intro _ _ _ _; exact h.dispose_log n
  · intro fa pa _ hfa hpa _; exact key fa pa hfa hpa
  · intro fa pa _ hfa hpa _; exact (key fa pa hfa hpa).dispose_log n

theorem LogInv.dedup_entries_log (cfg : Config) (entries_n : Nat) (mem : List entry) (fs : FS)
    (ba0 bb0 : List Byte) (sfa0 sfb0 : Stat) :
    LogInv mem (dedup_entries cfg entries_n (State.init mem fs ba0 bb0 sfa0 sfb0)) := by
  unfold Dedup.dedup_entries
  have := for_loop_rule cfg (0 + (entries_n - 1)) (fun _ s => LogInv mem s)
    (fun n st _ h => LogInv.anchor_step_log cfg n st h) (entries_n - 1) 0
    (State.init mem fs ba0 bb0 sfa0 sfb0) rfl (LogInv.init_log mem fs ba0 bb0 sfa0 sfb0)
  exact this

/-! ## Claims about the log of a run -/

/-- C6: in every run, every `unlink` is issued on a pair of slots with equal
recorded sizes whose two files are, in the file system of that moment, on the
same device; and every `link` is issued in the file system left by a logged,
successful `unlink` on the same pair, which passed that same guard. -/
theorem link_guard (cfg : Config) (entries_n : Nat) (mem : List entry) (fs : FS)
    (ba0 bb0 : List Byte) (sfa0 sfb0 : Stat) :
    (∀ fs1 i j ok,
      (fs1, Event.unlink i j ok) ∈
        (dedup_entries cfg entries_n (State.init mem fs ba0 bb0 sfa0 sfb0)).out →
      Linkable mem fs1 i j) ∧
    (∀ fs2 i j ok,
      (fs2, Event.link i j ok) ∈
        (dedup_entries cfg entries_n (State.init mem fs ba0 bb0 sfa0 sfb0)).out →
      ∃ (fs1 : FS) (eb : entry) (pb : Path), mem[j]? = some eb ∧ eb.fname = some pb ∧
        fs1.unlink pb = some fs2 ∧ Linkable mem fs1 i j ∧
        (fs1, Event.unlink i j true) ∈
          (dedup_entries cfg entries_n (State.init mem fs ba0 bb0 sfa0 sfb0)).out) := by
  have h := LogInv.dedup_entries_log cfg entries_n mem fs ba0 bb0 sfa0 sfb0
  exact ⟨fun fs1 i j ok hx => h.guarded _ hx, fun fs2 i j ok hx => h.guarded _ hx⟩

/-- C8: `dispose_entry` sets the name to `NULL` and doing it twice is doing it
once; in every run no slot ever gets a name it did not start with (a slot that
is `NULL` stays `NULL`), a slot that was disposed is `NULL` at the end, no
`stat`, `fopen`, comparison, `unlink` or `link` works on a slot after a
`dispose_entry` of that slot, and none ever works on a slot that started as
`NULL`. -/
theorem disposal_monotone (cfg : Config) (entries_n : Nat) (mem : List entry) (fs : FS)
    (ba0 bb0 : List Byte) (sfa0 sfb0 : Stat) :
    (∀ e, (dispose_entry e).fname = none ∧ dispose_entry (dispose_entry e) = dispose_entry e) ∧
    Frame mem (dedup_entries cfg entries_n (State.init mem fs ba0 bb0 sfa0 sfb0)).entries ∧
    (∀ i, Event.dispose i ∈
        (dedup_entries cfg entries_n (State.init mem fs ba0 bb0 sfa0 sfb0)).events →
      Dead (dedup_entries cfg entries_n (State.init mem fs ba0 bb0 sfa0 sfb0)).entries i) ∧
    Ordered (dedup_entries cfg entries_n (State.init mem fs ba0 bb0 sfa0 sfb0)).events ∧
    (∀ ev, ev ∈ (dedup_entries cfg entries_n (State.init mem fs ba0 bb0 sfa0 sfb0)).events →
      ∀ i, i ∈ ev.uses → ∃ p, Live mem i p) := by
  have h := LogInv.dedup_entries_log cfg entries_n mem fs ba0 bb0 sfa0 sfb0
  exact ⟨fun e => ⟨rfl, rfl⟩, h.frame, h.dead, h.ordered, h.used_live⟩

/-- C9, failing input: three entries of the same size in a block of exactly
three slots. After the candidate in slot 2 the loop reads `fb->size` from slot
3, which is `entries[entries_n]`: the run stops on a read outside the block.
In a block of 32 slots, as `realloc` gives it for three entries, the same read
is made (the 29 slots after the entries are taken as empty here) and the run
goes on. -/
theorem candidate_read_past_last_entry :
    (dedup_entries ⟨2, true, false⟩ 3
      (State.init mem_three fs_three [0, 0] [0, 0] ⟨0, 0⟩ ⟨0, 0⟩)).halt =
        some (Halt.out_of_block 3) ∧
    (dedup_entries ⟨2, true, false⟩ 3
      (State.init mem_three fs_three [0, 0] [0, 0] ⟨0, 0⟩ ⟨0, 0⟩)).events =
      [Event.stat 0, Event.read_size 1, Event.stat 1, Event.fopen 0 true, Event.fopen 1 true,
        Event.compare 0 1 true, Event.print_pair "a" "b", Event.unlink 0 1 true,
        Event.link 0 1 true, Event.dispose 1, Event.read_size 2, Event.stat 2,
        Event.fopen 0 true, Event.fopen 2 true, Event.compare 0 2 false, Event.read_size 3] ∧
    Event.read_size 3 ∈
      (dedup_entries ⟨2, true, false⟩ 3
        (State.init (mem_three ++ List.replicate 29 ⟨none, 0⟩) fs_three [0, 0] [0, 0]
          ⟨0, 0⟩ ⟨0, 0⟩)).events := by
  decide

/-- Witness for C7: the pair `a`, `b` of `fs_three`, block size 2. -/
theorem link_transaction_failure_handling_witness :
    ((⟨2, true, false⟩ : Config).dry_run = false ∧
      link_test "b" (State.init mem_three fs_three [0, 0] [0, 0] ⟨1, 10⟩ ⟨0, 0⟩) ∧
      fs_three.fopen "a" = some [1, 2, 3] ∧ fs_three.fopen "b" = some [1, 2, 3] ∧
      compare_contents 2 [0, 0] [0, 0] [1, 2, 3] [1, 2, 3] = some ⟨0, [3, 2], [3, 2], 2⟩) ∧
    (cand_step ⟨2, true, false⟩ 0 1 "a" "b"
      (State.init mem_three fs_three [0, 0] [0, 0] ⟨1, 10⟩ ⟨0, 0⟩)).entries =
        mem_three.modify dispose_entry 1 :=
  ⟨⟨by decide, by decide, by decide, by decide, by decide⟩,
    (link_transaction_failure_handling ⟨2, true, false⟩ 0 1 "a" "b"
      (State.init mem_three fs_three [0, 0] [0, 0] ⟨1, 10⟩ ⟨0, 0⟩) [1, 2, 3] [1, 2, 3]
      ⟨0, [3, 2], [3, 2], 2⟩ (by decide) (by decide) (by decide) (by decide) (by decide)
      (by decide)).2.1⟩

/-! ## The candidate pointer -/

theorem scan_succ (cfg : Config) (n fuel fb : Nat) (st : State) :
    scan cfg n (fuel + 1) fb st =
      match st.halt with
      | some _ => st
      | none =>
        match st.entries[n]? with
        | none => st.stop (Halt.out_of_block n)
        | some fa =>
          match fa.fname with
          | none => st
          | some pa =>
            match st.entries[fb]? with
            | none => (st.emit (Event.read_size fb)).stop (Halt.out_of_block fb)
            | some eb =>
              if fa.size = eb.size then
                match eb.fname with
                | some pb =>
                  scan cfg n fuel (fb + 1)
                    (cand_step cfg n fb pa pb (st.emit (Event.read_size fb)))
                | none => scan cfg n fuel (fb + 1) (st.emit (Event.read_size fb))
              else st.emit (Event.read_size fb) := by
  rw [scan]

theorem anchor_step_eq (cfg : Config) (n : Nat) (st : State) :
    anchor_step cfg n st =
      match st.halt with
      | some _ => st
      | none =>
        match st.entries[n]? with
        | none => st.stop (Halt.out_of_block n)
        | some fa =>
          match fa.fname with
          | some pa =>
            match (anchor_scan cfg n pa st).halt with
            | some _ => anchor_scan cfg n pa st
            | none => (anchor_scan cfg n pa st).dispose n
          | none => st.dispose n := by
  rw [anchor_step]

/-- Candidates stay within the entries when the slot after them ends the scan. -/
theorem in_range_step {mem es : List entry} {N n fb : Nat} {fa eb : entry}
    (hben : Fenced mem N) (hf : Frame mem es) (hr : InRange mem N n fb)
    (hfa : es[n]? = some fa) (heb : es[fb]? = some eb) (hs : fa.size = eb.size) :
    fb < N ∧ InRange mem N n (fb + 1) := by
  obtain ⟨a0, ha0, hsa, _⟩ := hf.2 n fa hfa
  obtain ⟨b0, hb0, hsb, _⟩ := hf.2 fb eb heb
  have hlt : fb < N := by
    rcases Nat.lt_or_eq_of_le hr.1 with h | h
    · exact h
    · exfalso
      obtain ⟨a, l, ha, hl, hal⟩ := hr.2 h
      rw [ha0] at ha
      cases ha
      rw [h] at hb0
      apply hben l b0 hl hb0
      rw [← hsb, ← hs, hsa, hal]
  refine ⟨hlt, by omega, ?_⟩
  intro h
  have e : N - 1 = fb := by omega
  exact ⟨a0, b0, ha0, by rw [e]; exact hb0, by rw [← hsa, ← hsb]; exact hs⟩

theorem in_range_start (mem : List entry) {N n : Nat} (h : n + 1 < N) :
    InRange mem N n (n + 1) :=
  ⟨by omega, fun e => by omega⟩

theorem Benign.fenced {mem : List entry} {N : Nat} (h : Benign mem N) : Fenced mem N := by
  obtain ⟨a, e, ha, he, hne⟩ := h
  intro a1 e1 ha1 he1
  rw [ha] at ha1
  rw [he] at he1
  cases ha1
  cases he1
  exact hne

theorem Benign.length {mem : List entry} {N : Nat} (h : Benign mem N) : N < mem.length := by
  obtain ⟨a, e, _, he, _⟩ := h
  by_contra hc
  rw [List.getElem?_eq_none (by omega)] at he
  cases he

/-! ## The model never runs out of fuel -/

theorem cand_step_length (cfg : Config) (n fb : Nat) (pa pb : Path) (st : State) :
    (cand_step cfg n fb pa pb st).entries.length = st.entries.length :=
  ((stable_frame st.entries).cand_step_keeps cfg n fb pa pb st (Frame.refl_frame _)).1

theorem scan_fuel (cfg : Config) (n : Nat) :
    ∀ (fuel fb : Nat) (st : State), st.entries.length < fuel + fb → fb ≤ st.entries.length →
      st.halt ≠ some Halt.fuel → (scan cfg n fuel fb st).halt ≠ some Halt.fuel := by
  intro fuel
  induction fuel with
  | zero => intro fb st h1 h2 _; omega
  | succ fuel ih =>
    intro fb st h1 h2 h3
    rw [scan_succ]
    cases hh : st.halt with
    | some x => dsimp only; rw [hh]; rw [hh] at h3; exact h3
    | none =>
      dsimp only
      cases hfa : st.entries[n]? with
      | none => simp
      | some fa =>
        dsimp only
        cases hpa : fa.fname with
        | none => dsimp only; rw [hh]; simp
        | some pa =>
          dsimp only
          cases heb : st.entries[fb]? with
          | none => simp
          | some eb =>
            dsimp only
            have hlt : fb < st.entries.length := by
              by_contra hc
              rw [List.getElem?_eq_none (by omega)] at heb
              cases heb
            by_cases hs : fa.size = eb.size
            · rw [if_pos hs]
              cases hpb : eb.fname with
              | none =>
                dsimp only
                apply ih
                · simp only [emit_entries]; omega
                · simp only [emit_entries]; omega
                · simp [hh]
              | some pb =>
                dsimp only
                apply ih
                · rw [cand_step_length]; simp only [emit_entries]; omega
                · rw [cand_step_length]; simp only [emit_entries]; omega
                · rw [cand_step_halt]; simp [hh]
            · rw [if_neg hs]
              simp [hh]

theorem anchor_step_fuel (cfg : Config) (n : Nat) (st : State)
    (h : st.halt ≠ some Halt.fuel) : (anchor_step cfg n st).halt ≠ some Halt.fuel := by
  have key : ∀ fa pa, st.halt = none → st.entries[n]? = some fa →
      (anchor_scan cfg n pa st).halt ≠ some Halt.fuel := by
    intro fa pa hh hfa
    unfold anchor_scan
    have hlt : n < st.entries.length := by
      by_contra hc
      rw [List.getElem?_eq_none (by omega)] at hfa
      cases hfa
    apply scan_fuel
    · simp only [set_sfa_entries, emit_entries]; omega
    · simp only [set_sfa_entries, emit_entries]; omega
    · simp [hh]
  apply anchor_step_rule cfg n st (fun s => s.halt ≠ some Halt.fuel)
  · intro _; exact h
  · intro _ _; simp
  · intro _ hh _ _; simp [hh]
  · intro fa pa hh hfa _ _; exact key fa pa hh hfa
  · intro fa pa hh hfa _ _; exact key fa pa hh hfa

/-- The fuel of the model's loops is enough: no run ends with `Halt.fuel`, so
a run either finishes or stops at a read outside the block. -/
theorem dedup_entries_fuel (cfg : Config) (entries_n : Nat) (mem : List entry) (fs : FS)
    (ba0 bb0 : List Byte) (sfa0 sfb0 : Stat) :
    (dedup_entries cfg entries_n (State.init mem fs ba0 bb0 sfa0 sfb0)).halt ≠
      some Halt.fuel := by
  unfold dedup_entries
  exact for_loop_rule cfg (0 + (entries_n - 1)) (fun _ s => s.halt ≠ some Halt.fuel)
    (fun n st _ h => anchor_step_fuel cfg n st h) (entries_n - 1) 0 _ rfl
    (by simp [State.init])

/-! ## A run with a benign slot after the last entry finishes -/

theorem scan_finishes {mem : List entry} {N : Nat} (cfg : Config) (hben : Benign mem N)
    (n : Nat) (hnN : n < N) :
    ∀ (fuel fb : Nat) (st : State), Frame mem st.entries → InRange mem N n fb →
      st.entries.length < fuel + fb → st.halt = none →
      (scan cfg n fuel fb st).halt = none := by
  have hlen := hben.length
  intro fuel
  induction fuel with
  | zero =>
    intro fb st hf hr h1 _
    have := hf.1
    have := hr.1
    omega
  | succ fuel ih =>
    intro fb st hf hr h1 hh
    have hl := hf.1
    rw [scan_succ, hh]
    dsimp only
    cases hfa : st.entries[n]? with
    | none =>
      rw [List.getElem?_eq_none_iff] at hfa
      omega
    | some fa =>
      dsimp only
      cases hpa : fa.fname with
      | none => exact hh
      | some pa =>
        dsimp only
        cases heb : st.entries[fb]? with
        | none =>
          rw [List.getElem?_eq_none_iff] at heb
          have := hr.1
          omega
        | some eb =>
          dsimp only
          by_cases hs : fa.size = eb.size
          · rw [if_pos hs]
            obtain ⟨_, hr'⟩ := in_range_step hben.fenced hf hr hfa heb hs
            cases hpb : eb.fname with
            | none =>
              dsimp only
              exact ih _ _ hf hr' (by simp only [emit_entries]; omega) hh
            | some pb =>
              dsimp only
              apply ih _ _ _ hr'
              · rw [cand_step_length]; simp only [emit_entries]; omega
              · rw [cand_step_halt]; exact hh
              · exact (stable_frame mem).cand_step_keeps cfg n fb pa pb _ hf
          · rw [if_neg hs]
            exact hh

theorem anchor_step_finishes {mem : List entry} {N : Nat} (cfg : Config) (hben : Benign mem N)
    (n : Nat) (hnN : n + 1 < N) (st : State) (hf : Frame mem st.entries)
    (hh : st.halt = none) : (anchor_step cfg n st).halt = none := by
  have hlen := hben.length
  have hl := hf.1
  rw [anchor_step_eq, hh]
  dsimp only
  cases hfa : st.entries[n]? with
  | none =>
    rw [List.getElem?_eq_none_iff] at hfa
    omega
  | some fa =>
    dsimp only
    cases hpa : fa.fname with
    | none => exact hh
    | some pa =>
      dsimp only
      have k : (anchor_scan cfg n pa st).halt = none := by
        unfold anchor_scan
        apply scan_finishes cfg hben n (by omega)
        · exact hf
        · exact in_range_start mem hnN
        · simp only [set_sfa_entries, emit_entries]; omega
        · exact hh
      rw [k]
      exact k

theorem for_loop_finishes {mem : List entry} {N : Nat} (cfg : Config) (hben : Benign mem N) :
    ∀ (k n : Nat) (st : State), n + k + 1 ≤ N → LogInv mem st → st.halt = none →
      (for_loop cfg k n st).halt = none := by
  intro k
  induction k with
  | zero => intro n st _ _ hh; exact hh
  | succ k ih =>
    intro n st hn hinv hh
    simp only [for_loop]
    exact ih (n + 1) _ (by omega) (LogInv.anchor_step_log cfg n st hinv)
      (anchor_step_finishes cfg hben n (by omega) st hinv.frame hh)

/-- With a benign slot after the last entry the run reads no slot outside
the block: it goes through the whole `for` loop. -/
theorem dedup_entries_finishes (cfg : Config) (N : Nat) (mem : List entry) (fs : FS)
    (ba0 bb0 : List Byte) (sfa0 sfb0 : Stat) (hben : Benign mem N) :
    (dedup_entries cfg N (State.init mem fs ba0 bb0 sfa0 sfb0)).halt = none := by
  unfold dedup_entries
  have hpos : 1 ≤ N := by
    obtain ⟨a, e, ha, he, hne⟩ := hben
    by_contra hc
    have h0 : N = 0 := by omega
    subst h0
    rw [ha] at he
    cases he
    exact hne rfl
  exact for_loop_finishes cfg hben (N - 1) 0 _ (by omega)
    (LogInv.init_log mem fs ba0 bb0 sfa0 sfb0) rfl

/-! ## Dry run against real run -/

theorem cand_step_skip (cfg : Config) (n fb : Nat) (pa pb : Path) (st : State)
    (ht : ¬ link_test pb st) : cand_step cfg n fb pa pb st = after_stat fb pb st := by
  unfold cand_step
  rw [if_neg ht]

theorem cand_step_anchor_fail (cfg : Config) (n fb : Nat) (pa pb : Path) (st : State)
    (ht : link_test pb st) (ha : st.fs.fopen pa = none) :
    cand_step cfg n fb pa pb st =
      (((after_stat fb pb st).emit (Event.fopen n false)).emit (Event.print_error pa)).dispose
        n := by
  unfold cand_step
  rw [if_pos ht, ha]

theorem cand_step_cand_fail (cfg : Config) (n fb : Nat) (pa pb : Path) (st : State)
    (fda : List Byte) (ht : link_test pb st) (ha : st.fs.fopen pa = some fda)
    (hb : st.fs.fopen pb = none) :
    cand_step cfg n fb pa pb st =
      ((((after_stat fb pb st).emit (Event.fopen n true)).emit (Event.fopen fb false)).emit
        (Event.print_error pb)).dispose fb := by
  unfold cand_step
  rw [if_pos ht, ha]
  dsimp only
  rw [hb]

theorem cand_step_different (cfg : Config) (n fb : Nat) (pa pb : Path) (st : State)
    (fda fdb : List Byte) (v : Verdict) (ht : link_test pb st)
    (ha : st.fs.fopen pa = some fda) (hb : st.fs.fopen pb = some fdb)
    (hv : compare_contents cfg.blk_size st.ba st.bb fda fdb = some v) (hz : v.z ≠ 0) :
    cand_step cfg n fb pa pb st = (after_read n fb pb v st).emit (Event.compare n fb false) := by
  unfold cand_step
  rw [if_pos ht, ha]
  dsimp only
  rw [hb]
  dsimp only
  rw [hv]
  dsimp only
  rw [if_neg hz]

theorem reported_emit (st : State) (ev : Event) :
    (st.emit ev).reported = st.reported ++ (match ev.pair with | some x => [x] | none => []) := by
  unfold State.reported
  rw [events_emit, List.filterMap_append]
  cases h : ev.pair <;> simp [List.filterMap, h]

theorem reported_dispose (st : State) (i : Nat) : (st.dispose i).reported = st.reported := by
  unfold State.reported
  rw [events_dispose, List.filterMap_append]
  simp [List.filterMap, Event.pair]

theorem reported_link_transaction (n fb : Nat) (pa pb : Path) (st : State) :
    (link_transaction n fb pa pb st).reported = st.reported := by
  apply link_transaction_rule n fb pa pb st (fun s => s.reported = st.reported)
  · intro _
    simp [State.reported, events_emit, List.filterMap_append, List.filterMap, Event.pair]
  · intro fs1 _ _
    simp [State.reported, events_emit, List.filterMap_append, List.filterMap, Event.pair]
  · intro fs1 fs2 _ _
    simp [State.reported, events_emit, List.filterMap_append, List.filterMap, Event.pair]

/-- What the link transaction does to the state besides the log: only the
file system changes, only at the candidate's directory entry, and the
environment stays. -/
theorem link_transaction_frame (n fb : Nat) (pa pb : Path) (st : State) :
    (link_transaction n fb pa pb st).entries = st.entries ∧
    (link_transaction n fb pa pb st).ba = st.ba ∧
    (link_transaction n fb pa pb st).bb = st.bb ∧
    (link_transaction n fb pa pb st).sfa = st.sfa ∧
    (link_transaction n fb pa pb st).sfb = st.sfb ∧
    (link_transaction n fb pa pb st).halt = st.halt ∧
    SameEnv st.fs (link_transaction n fb pa pb st).fs ∧
    ∀ l, l ≠ st.fs.loc pb → (link_transaction n fb pa pb st).fs.dir l = st.fs.dir l := by
  apply link_transaction_rule n fb pa pb st
    (fun s => s.entries = st.entries ∧ s.ba = st.ba ∧ s.bb = st.bb ∧ s.sfa = st.sfa ∧
      s.sfb = st.sfb ∧ s.halt = st.halt ∧ SameEnv st.fs s.fs ∧
      ∀ l, l ≠ st.fs.loc pb → s.fs.dir l = st.fs.dir l)
  · intro _
    exact ⟨rfl, rfl, rfl, rfl, rfl, rfl, SameEnv.refl_env _, fun _ _ => rfl⟩
  · intro fs1 h1 _
    refine ⟨rfl, rfl, rfl, rfl, rfl, rfl, (unlink_some h1).2.2.2, ?_⟩
    intro l hl
    simp only [emit_fs, set_fs_fs]
    exact dir_of_unlink h1 l hl
  · intro fs1 fs2 h1 h2
    refine ⟨rfl, rfl, rfl, rfl, rfl, rfl, (dir_of_relink h1 h2).1, ?_⟩
    intro l hl
    simp only [emit_fs, set_fs_fs]
    exact (dir_of_relink h1 h2).2 l hl

theorem Sim.emit_both {mem : List entry} {N : Nat} {fs0 : FS} {d r : State}
    (h : Sim mem N fs0 d r) (ev : Event) :
    Sim mem N fs0 (d.emit ev) (r.emit ev) where
  frame := h.frame
  entries := h.entries
  ba := h.ba
  bb := h.bb
  sfa := h.sfa
  sfb := h.sfb
  halt := h.halt
  reported := by rw [reported_emit, reported_emit, h.reported]
  dry := h.dry
  env := h.env
  same := h.same

theorem Sim.dispose_both {mem : List entry} {N : Nat} {fs0 : FS} {d r : State}
    (h : Sim mem N fs0 d r) (i : Nat) :
    Sim mem N fs0 (d.dispose i) (r.dispose i) where
  frame := h.frame.modify_frame i
  entries := by simp [h.entries]
  ba := h.ba
  bb := h.bb
  sfa := h.sfa
  sfb := h.sfb
  halt := h.halt
  reported := by rw [reported_dispose, reported_dispose, h.reported]
  dry := h.dry
  env := h.env
  same := fun j p hj hp => h.same j p hj (live_of_modify hp)

theorem Sim.set_sfa_both {mem : List entry} {N : Nat} {fs0 : FS} {d r : State}
    (h : Sim mem N fs0 d r) (s : Stat) :
    Sim mem N fs0 (d.set_sfa s) (r.set_sfa s) where
  frame := h.frame
  entries := h.entries
  ba := h.ba
  bb := h.bb
  sfa := rfl
  sfb := h.sfb
  halt := h.halt
  reported := h.reported
  dry := h.dry
  env := h.env
  same := h.same

theorem Sim.set_sfb_both {mem : List entry} {N : Nat} {fs0 : FS} {d r : State}
    (h : Sim mem N fs0 d r) (s : Stat) :
    Sim mem N fs0 (d.set_sfb s) (r.set_sfb s) where
  frame := h.frame
  entries := h.entries
  ba := h.ba
  bb := h.bb
  sfa := h.sfa
  sfb := rfl
  halt := h.halt
  reported := h.reported
  dry := h.dry
  env := h.env
  same := h.same

theorem Sim.set_bufs_both {mem : List entry} {N : Nat} {fs0 : FS} {d r : State}
    (h : Sim mem N fs0 d r)
    (a b : List Byte) : Sim mem N fs0 (d.set_bufs a b) (r.set_bufs a b) where
  frame := h.frame
  entries := h.entries
  ba := rfl
  bb := rfl
  sfa := h.sfa
  sfb := h.sfb
  halt := h.halt
  reported := h.reported
  dry := h.dry
  env := h.env
  same := h.same

theorem Sim.stop_both {mem : List entry} {N : Nat} {fs0 : FS} {d r : State}
    (h : Sim mem N fs0 d r) (x : Halt) :
    Sim mem N fs0 (d.stop x) (r.stop x) where
  frame := h.frame
  entries := h.entries
  ba := h.ba
  bb := h.bb
  sfa := h.sfa
  sfb := h.sfb
  halt := rfl
  reported := h.reported
  dry := h.dry
  env := h.env
  same := h.same

/-- The two runs see the same file behind the path of every live entry. -/
theorem Sim.agree {mem : List entry} {N : Nat} {fs0 : FS} {d r : State}
    (h : Sim mem N fs0 d r) {i : Nat} {p : Path} (hi : i < N) (hp : Live r.entries i p) :
    r.fs.node p = d.fs.node p := by
  rw [h.dry]
  exact (node_congr h.env p (h.same i p hi hp)).1

theorem sim_stat {mem : List entry} {N : Nat} {fs0 : FS} {d r : State} (h : Sim mem N fs0 d r)
    {i : Nat} {p : Path} (hi : i < N) (hp : Live r.entries i p) (buf : Stat) :
    d.fs.stat p buf = r.fs.stat p buf := by
  unfold FS.stat
  rw [h.agree hi hp]

theorem sim_fopen {mem : List entry} {N : Nat} {fs0 : FS} {d r : State} (h : Sim mem N fs0 d r)
    {i : Nat} {p : Path} (hi : i < N) (hp : Live r.entries i p) :
    d.fs.fopen p = r.fs.fopen p := by
  unfold FS.fopen
  rw [h.agree hi hp, h.env.data, h.env.readable, h.dry]

theorem sim_link_test {mem : List entry} {N : Nat} {fs0 : FS} {d r : State}
    (h : Sim mem N fs0 d r) {i : Nat}
    {p : Path} (hi : i < N) (hp : Live r.entries i p) : link_test p d ↔ link_test p r := by
  unfold link_test
  rw [sim_stat h hi hp, h.sfa, h.sfb]

theorem sim_after_stat {mem : List entry} {N : Nat} {fs0 : FS} {d r : State}
    (h : Sim mem N fs0 d r) {fb : Nat}
    {pb : Path} (hi : fb < N) (hp : Live r.entries fb pb) :
    Sim mem N fs0 (after_stat fb pb d) (after_stat fb pb r) := by
  unfold after_stat
  rw [sim_stat h hi hp, h.sfb]
  exact (h.emit_both _).set_sfb_both _

theorem sim_after_read {mem : List entry} {N : Nat} {fs0 : FS} {d r : State} (h : Sim mem N fs0 d r)
    (n : Nat) {fb : Nat} {pb : Path} (v : Verdict) (hi : fb < N) (hp : Live r.entries fb pb) :
    Sim mem N fs0 (after_read n fb pb v d) (after_read n fb pb v r) := by
  unfold after_read
  exact (((sim_after_stat h hi hp).emit_both _).emit_both _).set_bufs_both _ _

theorem sim_print_pair {mem : List entry} {N : Nat} {fs0 : FS} {d r : State} (h : Sim mem N fs0 d r)
    (cfgd cfgr : Config) (hv : cfgd.verbose = cfgr.verbose) (pa pb : Path) :
    Sim mem N fs0 (print_pair cfgd pa pb d) (print_pair cfgr pa pb r) := by
  unfold print_pair
  rw [hv]
  split
  · exact h.emit_both _
  · exact h

/-- The dry run disposes the candidate; the real run relinks it first. As
the path of no other entry leads through the candidate's directory entry, the
two runs still agree. -/
theorem sim_transaction {mem : List entry} {N : Nat} {fs0 : FS} {d r : State}
    (h : Sim mem N fs0 d r) (hapart : Apart mem N fs0) (n fb : Nat) (pa pb : Path)
    (hfbN : fb < N) (hfb : Live r.entries fb pb) :
    Sim mem N fs0 (d.dispose fb) ((link_transaction n fb pa pb r).dispose fb) := by
  obtain ⟨f1, f2, f3, f4, f5, f6, f7, f8⟩ := link_transaction_frame n fb pa pb r
  refine
    { frame := by rw [dispose_entries, f1]; exact h.frame.modify_frame fb
      entries := by simp [h.entries, f1]
      ba := by simp [h.ba, f2]
      bb := by simp [h.bb, f3]
      sfa := by simp [h.sfa, f4]
      sfb := by simp [h.sfb, f5]
      halt := by simp [h.halt, f6]
      reported := by
        rw [reported_dispose, reported_dispose, reported_link_transaction, h.reported]
      dry := by simp [h.dry]
      env := h.env.trans_env f7
      same := ?_ }
  intro j p hj hp l hl
  simp only [dispose_entries, f1] at hp
  simp only [dispose_fs]
  have hp' : Live r.entries j p := live_of_modify hp
  have hjfb : j ≠ fb := by
    intro e
    subst e
    exact live_not_dead hp (dead_modify_self _ _)
  have hne : l ≠ r.fs.loc pb := by
    intro e
    rw [e, h.env.loc] at hl
    exact hapart j fb p pb hj hfbN (h.frame.live_frame hp') (h.frame.live_frame hfb) hjfb
      (visits_subset_reads fs0 p _ hl)
  rw [f8 l hne]
  exact h.same j p hj hp' l hl

theorem sim_cand_step {mem : List entry} {N : Nat} {fs0 : FS} {d r : State} (h : Sim mem N fs0 d r)
    (cfgd cfgr : Config) (hblk : cfgd.blk_size = cfgr.blk_size)
    (hverb : cfgd.verbose = cfgr.verbose) (hdry : cfgd.dry_run = true)
    (hreal : cfgr.dry_run = false) (hapart : Apart mem N fs0) (n fb : Nat) (pa pb : Path)
    (hnN : n < N) (hfbN : fb < N) (hn : Live r.entries n pa) (hfb : Live r.entries fb pb) :
    Sim mem N fs0 (cand_step cfgd n fb pa pb d) (cand_step cfgr n fb pa pb r) := by
  have e1 := sim_link_test h hfbN hfb
  have e2 := sim_fopen h hnN hn
  have e3 := sim_fopen h hfbN hfb
  apply cand_step_rule cfgr n fb pa pb r (fun s => Sim mem N fs0 (cand_step cfgd n fb pa pb d) s)
  · intro ht
    rw [cand_step_skip cfgd n fb pa pb d (fun k => ht (e1.mp k))]
    exact sim_after_stat h hfbN hfb
  · intro ht ha
    rw [cand_step_anchor_fail cfgd n fb pa pb d (e1.mpr ht) (by rw [e2]; exact ha)]
    exact (((sim_after_stat h hfbN hfb).emit_both _).emit_both _).dispose_both n
  · intro fda ht ha hb
    rw [cand_step_cand_fail cfgd n fb pa pb d fda (e1.mpr ht) (by rw [e2]; exact ha)
      (by rw [e3]; exact hb)]
    exact ((((sim_after_stat h hfbN hfb).emit_both _).emit_both _).emit_both _).dispose_both fb
  · intro fda fdb v ht ha hb hv hz
    rw [cand_step_different cfgd n fb pa pb d fda fdb v (e1.mpr ht) (by rw [e2]; exact ha)
      (by rw [e3]; exact hb) (by rw [hblk, h.ba, h.bb]; exact hv) hz]
    exact (sim_after_read h n v hfbN hfb).emit_both _
  · intro fda fdb v ht ha hb hv hz
    rw [cand_step_identical cfgd n fb pa pb d fda fdb v (e1.mpr ht) (by rw [e2]; exact ha)
      (by rw [e3]; exact hb) (by rw [hblk, h.ba, h.bb]; exact hv) hz]
    unfold on_identical
    rw [hdry, hreal]
    simp only [if_true, Bool.false_eq_true, if_false]
    have k := sim_print_pair ((sim_after_read h n v hfbN hfb).emit_both (Event.compare n fb true))
      cfgd cfgr hverb pa pb
    exact sim_transaction k hapart n fb pa pb hfbN (by simpa using hfb)

theorem sim_scan {mem : List entry} {N : Nat} {fs0 : FS} (cfgd cfgr : Config)
    (hblk : cfgd.blk_size = cfgr.blk_size) (hverb : cfgd.verbose = cfgr.verbose)
    (hdry : cfgd.dry_run = true) (hreal : cfgr.dry_run = false) (hapart : Apart mem N fs0)
    (hben : Benign mem N) (n : Nat) (hnN : n < N) :
    ∀ (fuel fb : Nat) (d r : State), Sim mem N fs0 d r → InRange mem N n fb →
      Sim mem N fs0 (scan cfgd n fuel fb d) (scan cfgr n fuel fb r) := by
  intro fuel
  induction fuel with
  | zero =>
    intro fb d r h _
    simp only [scan]
    exact h.stop_both _
  | succ fuel ih =>
    intro fb d r h hr
    rw [scan_succ cfgd, scan_succ cfgr, h.halt, h.entries]
    cases hh : r.halt with
    | some x => exact h
    | none =>
      dsimp only
      cases hfa : r.entries[n]? with
      | none => exact h.stop_both _
      | some fa =>
        dsimp only
        cases hpa : fa.fname with
        | none => exact h
        | some pa =>
          dsimp only
          cases heb : r.entries[fb]? with
          | none => exact (h.emit_both _).stop_both _
          | some eb =>
            dsimp only
            by_cases hs : fa.size = eb.size
            · rw [if_pos hs, if_pos hs]
              obtain ⟨hlt, hr'⟩ := in_range_step hben.fenced h.frame hr hfa heb hs
              cases hpb : eb.fname with
              | none => exact ih _ _ _ (h.emit_both _) hr'
              | some pb =>
                dsimp only
                apply ih _ _ _ _ hr'
                exact sim_cand_step (h.emit_both _) cfgd cfgr hblk hverb hdry hreal hapart n fb pa pb
                  hnN hlt ⟨fa, hfa, hpa⟩ ⟨eb, heb, hpb⟩
            · rw [if_neg hs, if_neg hs]
              exact h.emit_both _

theorem sim_anchor_step {mem : List entry} {N : Nat} {fs0 : FS} (cfgd cfgr : Config)
    (hblk : cfgd.blk_size = cfgr.blk_size) (hverb : cfgd.verbose = cfgr.verbose)
    (hdry : cfgd.dry_run = true) (hreal : cfgr.dry_run = false) (hapart : Apart mem N fs0)
    (hben : Benign mem N) (n : Nat) (hnN : n + 1 < N) (d r : State) (h : Sim mem N fs0 d r) :
    Sim mem N fs0 (anchor_step cfgd n d) (anchor_step cfgr n r) := by
  rw [anchor_step_eq cfgd, anchor_step_eq cfgr, h.halt, h.entries]
  cases hh : r.halt with
  | some x => exact h
  | none =>
    dsimp only
    cases hfa : r.entries[n]? with
    | none => exact h.stop_both _
    | some fa =>
      dsimp only
      cases hpa : fa.fname with
      | none => exact h.dispose_both n
      | some pa =>
        dsimp only
        have k : Sim mem N fs0 (anchor_scan cfgd n pa d) (anchor_scan cfgr n pa r) := by
          unfold anchor_scan
          rw [h.entries, sim_stat h (by omega : n < N) ⟨fa, hfa, hpa⟩, h.sfa]
          exact sim_scan cfgd cfgr hblk hverb hdry hreal hapart hben n (by omega) _ _ _ _
            ((h.emit_both _).set_sfa_both _) (in_range_start mem hnN)
        rw [k.halt]
        cases (anchor_scan cfgr n pa r).halt with
        | some x => exact k
        | none => exact k.dispose_both n

theorem sim_for_loop {mem : List entry} {N : Nat} {fs0 : FS} (cfgd cfgr : Config)
    (hblk : cfgd.blk_size = cfgr.blk_size) (hverb : cfgd.verbose = cfgr.verbose)
    (hdry : cfgd.dry_run = true) (hreal : cfgr.dry_run = false) (hapart : Apart mem N fs0)
    (hben : Benign mem N) :
    ∀ (k n : Nat) (d r : State), n + k + 1 ≤ N → Sim mem N fs0 d r →
      Sim mem N fs0 (for_loop cfgd k n d) (for_loop cfgr k n r) := by
  intro k
  induction k with
  | zero => intro n d r _ h; exact h
  | succ k ih =>
    intro n d r hn h
    simp only [for_loop]
    exact ih (n + 1) _ _ (by omega)
      (sim_anchor_step cfgd cfgr hblk hverb hdry hreal hapart hben n (by omega) d r h)

theorem sim_init (mem : List entry) (N : Nat) (fs : FS) (ba0 bb0 : List Byte)
    (sfa0 sfb0 : Stat) :
    Sim mem N fs (State.init mem fs ba0 bb0 sfa0 sfb0) (State.init mem fs ba0 bb0 sfa0 sfb0) where
  frame := Frame.refl_frame mem
  entries := rfl
  ba := rfl
  bb := rfl
  sfa := rfl
  sfb := rfl
  halt := rfl
  reported := rfl
  dry := rfl
  env := SameEnv.refl_env fs
  same := fun _ _ _ _ _ _ => rfl

/-- C5, refuted as stated: with the path `b` collected twice, the dry run
reports the pair `a -> b` twice, the real run once (the second `b` already
shares the inode of `a`). The same happens when `c` is a symbolic link to
`b`: the dry run reports `a -> b` and `a -> c`, the real run only `a -> b`;
and when the second `b` is not an entry but what the slot after the last of
two entries holds. -/
theorem dry_run_reports_more_on_repeated_path :
    ((dedup_entries ⟨2, true, true⟩ 3
        (State.init mem_twice fs_three [0, 0] [0, 0] ⟨0, 0⟩ ⟨0, 0⟩)).reported =
      [("a", "b"), ("a", "b")] ∧
    (dedup_entries ⟨2, true, false⟩ 3
        (State.init mem_twice fs_three [0, 0] [0, 0] ⟨0, 0⟩ ⟨0, 0⟩)).reported =
      [("a", "b")]) ∧
    ((dedup_entries ⟨2, true, true⟩ 3
        (State.init mem_three_block fs_alias [0, 0] [0, 0] ⟨0, 0⟩ ⟨0, 0⟩)).reported =
      [("a", "b"), ("a", "c")] ∧
    (dedup_entries ⟨2, true, false⟩ 3
        (State.init mem_three_block fs_alias [0, 0] [0, 0] ⟨0, 0⟩ ⟨0, 0⟩)).reported =
      [("a", "b")]) ∧
    ((dedup_entries ⟨2, true, true⟩ 2
        (State.init mem_twice fs_three [0, 0] [0, 0] ⟨0, 0⟩ ⟨0, 0⟩)).reported =
      [("a", "b"), ("a", "b")] ∧
    (dedup_entries ⟨2, true, false⟩ 2
        (State.init mem_twice fs_three [0, 0] [0, 0] ⟨0, 0⟩ ⟨0, 0⟩)).reported =
      [("a", "b")]) := by
  decide

/-- C5, amended: when no entry's path leads to the directory entry of
another entry's path (no path occurs twice, under the same or another
spelling, and no symbolic link leads to or through another entry; one inode
may still occur under several names) and the slot after the last entry lies
in the block and holds another size than the last entry, then for every file
system state both a dry run and a real run with the same block size and
verbosity, started from the same state, go through the whole `for` loop, and
the pairs reported by the dry run are exactly the pairs reported by the real
run. -/
theorem dry_run_report_equivalence (cfgd cfgr : Config) (N : Nat) (mem : List entry) (fs : FS)
    (ba0 bb0 : List Byte) (sfa0 sfb0 : Stat) (hblk : cfgd.blk_size = cfgr.blk_size)
    (hverb : cfgd.verbose = cfgr.verbose) (hdry : cfgd.dry_run = true)
    (hreal : cfgr.dry_run = false) (hapart : Apart mem N fs) (hben : Benign mem N) :
    (dedup_entries cfgd N (State.init mem fs ba0 bb0 sfa0 sfb0)).halt = none ∧
    (dedup_entries cfgr N (State.init mem fs ba0 bb0 sfa0 sfb0)).halt = none ∧
    (dedup_entries cfgd N (State.init mem fs ba0 bb0 sfa0 sfb0)).reported =
      (dedup_entries cfgr N (State.init mem fs ba0 bb0 sfa0 sfb0)).reported := by
  refine ⟨dedup_entries_finishes cfgd N mem fs ba0 bb0 sfa0 sfb0 hben,
    dedup_entries_finishes cfgr N mem fs ba0 bb0 sfa0 sfb0 hben, ?_⟩
  unfold dedup_entries
  rcases Nat.eq_zero_or_pos N with h0 | hpos
  · subst h0; rfl
  · exact (sim_for_loop cfgd cfgr hblk hverb hdry hreal hapart hben (N - 1) 0 _ _ (by omega)
      (sim_init mem N fs ba0 bb0 sfa0 sfb0)).reported

/-! ## A symbolic link as anchor -/

/-- C1, failing input: the entries `d1/s` and `d2/f`, both of size 3, where
`d1/s` is a symbolic link with the relative target `t` and `d1/t` holds the
bytes of `d2/f`. `stat` and `fopen` follow the link, so the real run finds the
two identical, and every call succeeds; but `link("d1/s", "d2/f")` makes
`d2/f` a second name of the symbolic link itself, and from `d2` the target `t`
is `d2/t`. When `d2/t` does not exist, `d2/f` can no longer be opened; when
`d2/t` holds other bytes, `d2/f` reads those. A second failing input comes
from the read of the slot after the last entry: when that slot holds the name
of the first entry `p` with the size of the last two, `p` is compared with the
anchor `a` as if it had two bytes and is replaced by a link to `a`, so that
`p` reads `1, 1` where it held `1`. -/
theorem content_lost_behind_symlink_anchor :
    ((fs_symlink none).content "d1/s" = some [1, 2, 3] ∧
      (fs_symlink none).content "d2/f" = some [1, 2, 3] ∧
      (dedup_entries ⟨2, true, false⟩ 2
        (State.init mem_symlink (fs_symlink none) [0, 0] [0, 0] ⟨0, 0⟩ ⟨0, 0⟩)).halt = none ∧
      (dedup_entries ⟨2, true, false⟩ 2
        (State.init mem_symlink (fs_symlink none) [0, 0] [0, 0] ⟨0, 0⟩ ⟨0, 0⟩)).events =
        [Event.stat 0, Event.read_size 1, Event.stat 1, Event.fopen 0 true,
          Event.fopen 1 true, Event.compare 0 1 true, Event.print_pair "d1/s" "d2/f",
          Event.unlink 0 1 true, Event.link 0 1 true, Event.dispose 1, Event.read_size 2,
          Event.dispose 0] ∧
      (dedup_entries ⟨2, true, false⟩ 2
        (State.init mem_symlink (fs_symlink none) [0, 0] [0, 0] ⟨0, 0⟩ ⟨0, 0⟩)).fs.dir 2 =
          some (Obj.symlink "t") ∧
      (dedup_entries ⟨2, true, false⟩ 2
        (State.init mem_symlink (fs_symlink none) [0, 0] [0, 0] ⟨0, 0⟩ ⟨0, 0⟩)).fs.fopen "d2/f" =
          none ∧
      (dedup_entries ⟨2, true, false⟩ 2
        (State.init mem_symlink (fs_symlink none) [0, 0] [0, 0] ⟨0, 0⟩ ⟨0, 0⟩)).fs.content
          "d2/f" = none) ∧
    ((fs_symlink (some [7, 8, 9])).content "d2/f" = some [1, 2, 3] ∧
      (dedup_entries ⟨2, true, false⟩ 2
        (State.init mem_symlink (fs_symlink (some [7, 8, 9])) [0, 0] [0, 0] ⟨0, 0⟩
          ⟨0, 0⟩)).fs.content "d2/f" = some [7, 8, 9]) ∧
    (fs_short.content "p" = some [1] ∧ fs_short.content "a" = some [1, 1] ∧
      fs_short.content "c" = some [2, 2] ∧
      (dedup_entries ⟨1, true, false⟩ 3
        (State.init mem_short fs_short [0] [0] ⟨0, 0⟩ ⟨0, 0⟩)).events =
        [Event.stat 0, Event.read_size 1, Event.dispose 0, Event.stat 1, Event.read_size 2,
          Event.stat 2, Event.fopen 1 true, Event.fopen 2 true, Event.compare 1 2 false,
          Event.read_size 3, Event.stat 3, Event.fopen 1 true, Event.fopen 3 true,
          Event.compare 1 3 true, Event.print_pair "a" "p", Event.unlink 1 3 true,
          Event.link 1 3 true, Event.dispose 3, Event.read_size 4, Event.dispose 1] ∧
      (dedup_entries ⟨1, true, false⟩ 3
        (State.init mem_short fs_short [0] [0] ⟨0, 0⟩ ⟨0, 0⟩)).fs.content "p" =
          some [1, 1]) := by
  decide

/-- C4, failing input: the entries `d1/s` and `d2/f` as for C1, with a file
`d2/t` that holds the same three bytes. The first real run, in which every
call succeeds, leaves `d2/f` as a second name of the symbolic link `d1/s`, so
that `d2/f` leads to `d2/t`: the two entries are then on one device, on
different inodes and equal in content. The second run over the same entries
reports the pair again and calls `unlink` and `link` again. -/
theorem second_run_relinks_behind_symlink_anchor :
    ((dedup_entries ⟨2, true, false⟩ 2
        (State.init mem_symlink (fs_symlink (some [1, 2, 3])) [0, 0] [0, 0] ⟨0, 0⟩
          ⟨0, 0⟩)).halt = none ∧
      (dedup_entries ⟨2, true, false⟩ 2
        (State.init mem_symlink (fs_symlink (some [1, 2, 3])) [0, 0] [0, 0] ⟨0, 0⟩
          ⟨0, 0⟩)).events =
        [Event.stat 0, Event.read_size 1, Event.stat 1, Event.fopen 0 true,
          Event.fopen 1 true, Event.compare 0 1 true, Event.print_pair "d1/s" "d2/f",
          Event.unlink 0 1 true, Event.link 0 1 true, Event.dispose 1, Event.read_size 2,
          Event.dispose 0]) ∧
    ((dedup_entries ⟨2, true, false⟩ 2
        (State.init mem_symlink (fs_symlink (some [1, 2, 3])) [0, 0] [0, 0] ⟨0, 0⟩
          ⟨0, 0⟩)).fs.node "d1/s" = some ⟨1, 10⟩ ∧
      (dedup_entries ⟨2, true, false⟩ 2
        (State.init mem_symlink (fs_symlink (some [1, 2, 3])) [0, 0] [0, 0] ⟨0, 0⟩
          ⟨0, 0⟩)).fs.node "d2/f" = some ⟨1, 12⟩ ∧
      (dedup_entries ⟨2, true, false⟩ 2
        (State.init mem_symlink (fs_symlink (some [1, 2, 3])) [0, 0] [0, 0] ⟨0, 0⟩
          ⟨0, 0⟩)).fs.content "d1/s" = some [1, 2, 3] ∧
      (dedup_entries ⟨2, true, false⟩ 2
        (State.init mem_symlink (fs_symlink (some [1, 2, 3])) [0, 0] [0, 0] ⟨0, 0⟩
          ⟨0, 0⟩)).fs.content "d2/f" = some [1, 2, 3]) ∧
    ((dedup_entries ⟨2, true, false⟩ 2
        (State.init mem_symlink
          (dedup_entries ⟨2, true, false⟩ 2
            (State.init mem_symlink (fs_symlink (some [1, 2, 3])) [0, 0] [0, 0] ⟨0, 0⟩
              ⟨0, 0⟩)).fs
          [0, 0] [0, 0] ⟨0, 0⟩ ⟨0, 0⟩)).events =
        [Event.stat 0, Event.read_size 1, Event.stat 1, Event.fopen 0 true,
          Event.fopen 1 true, Event.compare 0 1 true, Event.print_pair "d1/s" "d2/f",
          Event.unlink 0 1 true, Event.link 0 1 true, Event.dispose 1, Event.read_size 2,
          Event.dispose 0] ∧
      (dedup_entries ⟨2, true, false⟩ 2
        (State.init mem_symlink
          (dedup_entries ⟨2, true, false⟩ 2
            (State.init mem_symlink (fs_symlink (some [1, 2, 3])) [0, 0] [0, 0] ⟨0, 0⟩
              ⟨0, 0⟩)).fs
          [0, 0] [0, 0] ⟨0, 0⟩ ⟨0, 0⟩)).reported = [("d1/s", "d2/f")]) := by
  decide

/-! ## The example block `mem_three_block` on `fs_three` -/

theorem three_block_cases {i : Nat} {e : entry} (hi : i < 3)
    (he : mem_three_block[i]? = some e) :
    (i = 0 ∧ e = ⟨some "a", 3⟩) ∨ (i = 1 ∧ e = ⟨some "b", 3⟩) ∨ (i = 2 ∧ e = ⟨some "c", 3⟩) := by
  interval_cases i
  · left; exact ⟨rfl, (Option.some.inj he).symm⟩
  · right; left; exact ⟨rfl, (Option.some.inj he).symm⟩
  · right; right; exact ⟨rfl, (Option.some.inj he).symm⟩

theorem three_block_live {i : Nat} {p : Path} (hi : i < 3) (hp : Live mem_three_block i p) :
    (i = 0 ∧ p = "a") ∨ (i = 1 ∧ p = "b") ∨ (i = 2 ∧ p = "c") := by
  obtain ⟨e, he, hpe⟩ := hp
  rcases three_block_cases hi he with ⟨h1, rfl⟩ | ⟨h1, rfl⟩ | ⟨h1, rfl⟩
  · exact Or.inl ⟨h1, (Option.some.inj hpe).symm⟩
  · exact Or.inr (Or.inl ⟨h1, (Option.some.inj hpe).symm⟩)
  · exact Or.inr (Or.inr ⟨h1, (Option.some.inj hpe).symm⟩)

theorem three_block_benign : Benign mem_three_block 3 :=
  ⟨⟨some "c", 3⟩, ⟨none, 0⟩, rfl, rfl, by decide⟩

theorem three_block_apart : Apart mem_three_block 3 fs_three := by
  intro i j p q hi hj hp hq hij
  rcases three_block_live hi hp with ⟨h1, rfl⟩ | ⟨h1, rfl⟩ | ⟨h1, rfl⟩ <;>
    rcases three_block_live hj hq with ⟨h2, rfl⟩ | ⟨h2, rfl⟩ | ⟨h2, rfl⟩ <;>
    first
      | exact absurd (h1.trans h2.symm) hij
      | decide

/-! ## Witnesses -/

/-- Witness for the amended C5: the three entries of `fs_three`, which are
three files in one directory; both runs report the pair `a -> b`. -/
theorem dry_run_report_equivalence_witness :
    ((⟨2, true, true⟩ : Config).blk_size = (⟨2, true, false⟩ : Config).blk_size ∧
      (⟨2, true, true⟩ : Config).verbose = (⟨2, true, false⟩ : Config).verbose ∧
      (⟨2, true, true⟩ : Config).dry_run = true ∧
      (⟨2, true, false⟩ : Config).dry_run = false ∧
      Apart mem_three_block 3 fs_three ∧ Benign mem_three_block 3) ∧
    ((dedup_entries ⟨2, true, true⟩ 3
        (State.init mem_three_block fs_three [0, 0] [0, 0] ⟨0, 0⟩ ⟨0, 0⟩)).halt = none ∧
      (dedup_entries ⟨2, true, false⟩ 3
        (State.init mem_three_block fs_three [0, 0] [0, 0] ⟨0, 0⟩ ⟨0, 0⟩)).halt = none ∧
      (dedup_entries ⟨2, true, true⟩ 3
          (State.init mem_three_block fs_three [0, 0] [0, 0] ⟨0, 0⟩ ⟨0, 0⟩)).reported =
        (dedup_entries ⟨2, true, false⟩ 3
          (State.init mem_three_block fs_three [0, 0] [0, 0] ⟨0, 0⟩ ⟨0, 0⟩)).reported) :=
  ⟨⟨rfl, rfl, rfl, rfl, three_block_apart, three_block_benign⟩,
    dry_run_report_equivalence ⟨2, true, true⟩ ⟨2, true, false⟩ 3 mem_three_block fs_three
      [0, 0] [0, 0] ⟨0, 0⟩ ⟨0, 0⟩ rfl rfl rfl rfl three_block_apart three_block_benign⟩

end Dedup
